import Mathlib

/-!
Verification of the browser-automation scraping layer of the HireME
repository (`src/hireme/scraper/`): URL cache normalization and eviction,
request-interception policy, text cleaning, the single-URL fetch pipeline,
and the multi-source search orchestrator.

Python strings are modelled as `List Char`; the relevant pieces of the
Python standard library (`str.strip`, `str.splitlines`, `urllib.parse.urlparse`
as implemented in CPython 3.11, and the specific `re.sub` calls made by the
code) are modelled explicitly below.  External effects (Playwright page
navigation, selector waits, content extraction) are modelled as oracle
values supplied through a world structure, mirroring the control flow of
the source.
-/

namespace HireMe

/-! ## Python string primitives -/

/-- The characters for which Python `str.isspace` is true
(verified against CPython 3.11: code points 0x9-0xd, 0x1c-0x1f, 0x20,
0x85, 0xa0, 0x1680, 0x2000-0x200a, 0x2028, 0x2029, 0x202f, 0x205f, 0x3000).
`str.strip()` with no argument removes exactly these characters. -/
def pyIsSpace (c : Char) : Bool :=
  [0x9, 0xa, 0xb, 0xc, 0xd, 0x1c, 0x1d, 0x1e, 0x1f, 0x20, 0x85, 0xa0, 0x1680,
   0x2000, 0x2001, 0x2002, 0x2003, 0x2004, 0x2005, 0x2006, 0x2007, 0x2008,
   0x2009, 0x200a, 0x2028, 0x2029, 0x202f, 0x205f, 0x3000].contains c.toNat

/-- Python `str.strip()` (no argument): drop `pyIsSpace` characters from
both ends. -/
def pystrip (l : List Char) : List Char :=
  ((l.dropWhile pyIsSpace).reverse.dropWhile pyIsSpace).reverse

/-- The line-boundary characters of Python `str.splitlines`
(verified against CPython 3.11: 0xa, 0xb, 0xc, 0xd, 0x1c, 0x1d, 0x1e,
0x85, 0x2028, 0x2029; the pair `\r\n` counts as a single boundary). -/
def isLineBreak (c : Char) : Bool :=
  [0xa, 0xb, 0xc, 0xd, 0x1c, 0x1d, 0x1e, 0x85, 0x2028, 0x2029].contains c.toNat

/-- Python `str.splitlines()`:
`"" → []`, `"a\nb" → ["a","b"]`, `"a\n" → ["a"]`, `"\n" → [""]`,
`"a\r\nb" → ["a","b"]` (the pair `\r\n` is a single boundary). -/
def pysplitlines : List Char → List (List Char)
  | [] => []
  | '\r' :: '\n' :: rest => [] :: pysplitlines rest
  | c :: rest =>
    if isLineBreak c then [] :: pysplitlines rest
    else
      match pysplitlines rest with
      | [] => [[c]]
      | l :: ls => (c :: l) :: ls

/-- Python `"\n".join` on a list of lines. -/
def joinNL : List (List Char) → List Char
  | [] => []
  | l :: ls =>
    match ls with
    | [] => l
    | _ :: _ => l ++ '\n' :: joinNL ls

/-! ## The `re.sub` calls of `clean_html_text` (offers_parser.py)

Each call is modelled by a dedicated scanner with Python `re` semantics:
scan left to right, replace each leftmost non-overlapping match, resume
after it.  `.` never matches a newline (no `DOTALL`), so a lazy `.*?\n`
always extends exactly to the first following newline and a lazy
`.*?lit` to the first occurrence of `lit` on the current line. -/

/-- `re.sub(r"\n{3,}", "\n\n", ·)` as a one-pass state machine: `k`
counts the newlines of the current run; from the third one on they are
dropped, which collapses every run of three or more newlines to exactly
two. -/
def subNL3Go (k : Nat) : List Char → List Char
  | [] => []
  | c :: rest =>
    if c == '\n' then
      if 2 ≤ k then subNL3Go (k + 1) rest else '\n' :: subNL3Go (k + 1) rest
    else c :: subNL3Go 0 rest

/-- `re.sub(r"\n{3,}", "\n\n", ·)`. -/
def subNL3 (l : List Char) : List Char :=
  subNL3Go 0 l

/-- `re.sub(r"[ \t]+", " ", ·)` as a one-pass state machine: `inRun`
records whether the previous character belonged to a space/tab run; the
first character of each run becomes a single space, the rest are
dropped. -/
def subSpTabGo (inRun : Bool) : List Char → List Char
  | [] => []
  | c :: rest =>
    if c == ' ' || c == '\t' then
      if inRun then subSpTabGo true rest else ' ' :: subSpTabGo true rest
    else c :: subSpTabGo false rest

/-- `re.sub(r"[ \t]+", " ", ·)`. -/
def subSpTab (l : List Char) : List Char :=
  subSpTabGo false l

/-- `re.sub(r" *\n *", "\n", ·)` as a one-pass state machine.  A space
run is held back in `pending` until its end: a following newline means
the regex consumed the run (and, with `afterNL`, any spaces directly
after the newline), anything else means there was no match there and the
run is emitted verbatim. -/
def subSpNLGo (afterNL : Bool) (pending : Nat) : List Char → List Char
  | [] => List.replicate pending ' '
  | c :: rest =>
    if c == '\n' then '\n' :: subSpNLGo true 0 rest
    else if c == ' ' then
      if afterNL then subSpNLGo true 0 rest
      else subSpNLGo false (pending + 1) rest
    else List.replicate pending ' ' ++ c :: subSpNLGo false 0 rest

/-- `re.sub(r" *\n *", "\n", ·)`. -/
def subSpNL (l : List Char) : List Char :=
  subSpNLGo false 0 l

/-- Case-insensitive prefix test against an (already lowercase) ASCII
pattern, as performed by a `(?i)` literal. -/
def startsCI (pat : List Char) (s : List Char) : Bool :=
  (s.take pat.length).map Char.toLower == pat

/-- Consume a `(?i)` literal; `none` when it does not match here. -/
def eatCI (pat : String) (s : List Char) : Option (List Char) :=
  if startsCI pat.toList s then some (s.drop pat.toList.length) else none

/-- Length (inclusive) of a lazy `.*?\n` here: up to and including the
first newline; fails when the string has no further newline. -/
def tillNL : List Char → Option Nat
  | [] => none
  | c :: rest =>
    if c == '\n' then some 1 else (tillNL rest).map (· + 1)

/-- Position of the first match of a `(?i)` literal reachable by a lazy
`.*?` (which cannot cross a newline). -/
def findCILine (pat : String) (s : List Char) : Option Nat :=
  if startsCI pat.toList s then some 0
  else match s with
    | [] => none
    | c :: rest =>
      if c == '\n' then none else (findCILine pat rest).map (· + 1)

/-- Remaining input after a lazy `.*?lit.*?\n` (with `lit` on the current
line followed eventually by a newline), or `none`. -/
def eatLazyLitNL (pat : String) (s : List Char) : Option (List Char) := do
  let i ← findCILine pat s
  let r := s.drop (i + pat.toList.length)
  let n ← tillNL r
  pure (r.drop n)

/-- Remaining input after a lazy `.*?\n`, or `none`. -/
def eatTillNL (s : List Char) : Option (List Char) := do
  let n ← tillNL s
  pure (s.drop n)

/-- `(?i)cookie[s]? (policy|settings|preferences).*?\n` -/
def mCookie (s : List Char) : Option Nat := do
  let r1 ← eatCI "cookie" s
  let r2 ← eatCI "s " r1 <|> eatCI " " r1
  let r3 ← eatCI "policy" r2 <|> eatCI "settings" r2 <|> eatCI "preferences" r2
  let r4 ← eatTillNL r3
  pure (s.length - r4.length)

/-- `(?i)accept (all )?cookies.*?\n` -/
def mAccept (s : List Char) : Option Nat := do
  let r1 ← eatCI "accept " s
  let r4 ← (do
      let ra ← eatCI "all " r1
      let rb ← eatCI "cookies" ra
      eatTillNL rb)
    <|> (do
      let rb ← eatCI "cookies" r1
      eatTillNL rb)
  pure (s.length - r4.length)

/-- `(?i)privacy policy.*?\n` -/
def mPrivacy (s : List Char) : Option Nat := do
  let r1 ← eatCI "privacy policy" s
  let r2 ← eatTillNL r1
  pure (s.length - r2.length)

/-- `(?i)terms (of|and) (service|use|conditions).*?\n` -/
def mTerms (s : List Char) : Option Nat := do
  let r1 ← eatCI "terms " s
  let r2 ← eatCI "of " r1 <|> eatCI "and " r1
  let r3 ← eatCI "service" r2 <|> eatCI "use" r2 <|> eatCI "conditions" r2
  let r4 ← eatTillNL r3
  pure (s.length - r4.length)

/-- `(?i)©.*?all rights reserved.*?\n` -/
def mCopyright (s : List Char) : Option Nat := do
  let r1 ← eatCI "©" s
  let r2 ← eatLazyLitNL "all rights reserved" r1
  pure (s.length - r2.length)

/-- `(?i)follow us on.*?\n` -/
def mFollow (s : List Char) : Option Nat := do
  let r1 ← eatCI "follow us on" s
  let r2 ← eatTillNL r1
  pure (s.length - r2.length)

/-- `(?i)share (this|on).*?\n` -/
def mShare (s : List Char) : Option Nat := do
  let r1 ← eatCI "share " s
  let r2 ← eatCI "this" r1 <|> eatCI "on" r1
  let r3 ← eatTillNL r2
  pure (s.length - r3.length)

/-- `(?i)subscribe to.*?\n` -/
def mSubscribe (s : List Char) : Option Nat := do
  let r1 ← eatCI "subscribe to" s
  let r2 ← eatTillNL r1
  pure (s.length - r2.length)

/-- `(?i)sign up for.*?newsletter.*?\n` -/
def mSignup (s : List Char) : Option Nat := do
  let r1 ← eatCI "sign up for" s
  let r2 ← eatLazyLitNL "newsletter" r1
  pure (s.length - r2.length)

/-- `(?i)navigation|menu|footer|header|sidebar.*?\n` — note the `.*?\n`
binds only to the last alternative, so the four bare words match anywhere
(even mid-word) with no newline required. -/
def mNav (s : List Char) : Option Nat :=
  if startsCI "navigation".toList s then some 10
  else if startsCI "menu".toList s then some 4
  else if startsCI "footer".toList s then some 6
  else if startsCI "header".toList s then some 6
  else (do
    let r1 ← eatCI "sidebar" s
    let r2 ← eatTillNL r1
    pure (s.length - r2.length))

/-- `re.sub(pat, "", text)` for a matcher `m` giving the length of the
leftmost match at a position: scan left to right, drop each match, resume
after it.  Recursion is on a fuel bounded by the text length; every
pattern above consumes at least one character per match, so one unit of
fuel per consumed character suffices and the fuel-exhaustion branch is
unreachable from `subDel`. -/
def subDelGo (m : List Char → Option Nat) : Nat → List Char → List Char
  | _, [] => []
  | 0, l => l
  | fuel + 1, c :: rest =>
    match m (c :: rest) with
    | some n => subDelGo m fuel ((c :: rest).drop n)
    | none => c :: subDelGo m fuel rest

/-- `re.sub(pat, "", text)` with matcher `m`. -/
def subDel (m : List Char → Option Nat) (l : List Char) : List Char :=
  subDelGo m l.length l

/-- The ordered boilerplate pattern list of `clean_html_text`. -/
def boilerplate : List (List Char → Option Nat) :=
  [mCookie, mAccept, mPrivacy, mTerms, mCopyright,
   mFollow, mShare, mSubscribe, mSignup, mNav]

/-- Apply the boilerplate substitutions in order. -/
def boilerAll (l : List Char) : List Char :=
  boilerplate.foldl (fun t m => subDel m t) l

/-- `clean_html_text` (offers_parser.py lines 22-49): whitespace
normalization, boilerplate removal, final strip; empty input short-circuits. -/
def cleanHtmlTextL (text : List Char) : List Char :=
  if text.isEmpty then []
  else pystrip (boilerAll (subSpNL (subSpTab (subNL3 text))))

/-- `clean_text` (offers_parser.py lines 87-113): strip each line, drop
empty lines, rejoin, then `clean_html_text`. -/
def cleanTextL (text : List Char) : List Char :=
  cleanHtmlTextL (joinNL (((pysplitlines text).map pystrip).filter
    (fun l => !l.isEmpty)))

/-- String-level `clean_html_text`. -/
def clean_html_text (text : String) : String :=
  (cleanHtmlTextL text.toList).asString

/-- String-level `clean_text`. -/
def clean_text (text : String) : String :=
  (cleanTextL text.toList).asString

/-! ## `urllib.parse.urlparse` (CPython 3.11)

`URLCache._normalize_url` calls `urlparse` and reads `.scheme`,
`.netloc` and `.path`; the split is modelled after the CPython 3.11
implementation (`urlsplit` plus `_splitparams`).  The `ValueError`
branches for unbalanced IPv6 brackets and for non-ASCII netlocs that
change under NFKC normalization are not modelled: they raise instead of
returning and are unreachable for the well-formed URLs the claims are
about. -/

/-- `scheme_chars` of `urllib.parse`: ASCII letters, digits, `+`, `-`, `.`. -/
def isSchemeChar (c : Char) : Bool :=
  c.isAlpha || c.isDigit || c == '+' || c == '-' || c == '.'

/-- First index of `c`, like Python `str.find` (but `none` for -1). -/
def idxOf? (c : Char) (l : List Char) : Option Nat :=
  l.findIdx? (· == c)

/-- Last index of `c`, like Python `str.rfind` (but `none` for -1). -/
def rIdxOf? (c : Char) (l : List Char) : Option Nat :=
  (l.reverse.findIdx? (· == c)).map (fun k => l.length - 1 - k)

/-- The result of `urlparse`: scheme, netloc, path, params, query, fragment. -/
structure ParseResult where
  scheme : List Char
  netloc : List Char
  path : List Char
  params : List Char
  query : List Char
  fragment : List Char
  deriving Repr, DecidableEq

/-- `uses_params` of `urllib.parse`. -/
def uses_params : List String :=
  ["", "ftp", "hdl", "prospero", "http", "imap", "https", "shttp", "rtsp",
   "rtspu", "sip", "sips", "mms", "sftp", "tel"]

/-- `urllib.parse.urlsplit` (CPython 3.11) followed by the params split of
`urlparse`:
1. remove the unsafe bytes tab, CR, LF;
2. split off `scheme:` when the prefix before the first `:` is a nonempty
   run of scheme characters starting with an ASCII letter (scheme lowercased);
3. when `//` follows, the netloc extends to the next `/`, `?` or `#`;
4. split the fragment at the first `#`, then the query at the first `?`;
5. `urlparse` additionally splits `;params` off the path when the scheme
   uses params: after the last `/` if the path has one, else at the first `;`. -/
def urlparse (url0 : List Char) : ParseResult :=
  let url1 := url0.filter (fun c => !(['\t', '\r', '\n'].contains c))
  let hasScheme :=
    match idxOf? ':' url1 with
    | some i =>
      0 < i && (url1.headD ' ').isAlpha && (url1.take i).all isSchemeChar
    | none => false
  let scheme :=
    if hasScheme then
      (url1.take ((idxOf? ':' url1).getD 0)).map Char.toLower
    else []
  let url2 :=
    if hasScheme then url1.drop ((idxOf? ':' url1).getD 0 + 1) else url1
  let hasNetloc := url2.take 2 == ['/', '/']
  let netloc :=
    if hasNetloc then
      (url2.drop 2).takeWhile (fun c => !(['/', '?', '#'].contains c))
    else []
  let url3 :=
    if hasNetloc then
      (url2.drop 2).dropWhile (fun c => !(['/', '?', '#'].contains c))
    else url2
  let (url4, fragment) :=
    match idxOf? '#' url3 with
    | some i => (url3.take i, url3.drop (i + 1))
    | none => (url3, [])
  let (url5, query) :=
    match idxOf? '?' url4 with
    | some i => (url4.take i, url4.drop (i + 1))
    | none => (url4, [])
  let (path, params) :=
    if uses_params.contains scheme.asString && url5.contains ';' then
      match rIdxOf? '/' url5 with
      | some j =>
        match ((url5.drop j).findIdx? (· == ';')).map (· + j) with
        | some i => (url5.take i, url5.drop (i + 1))
        | none => (url5, [])
      | none =>
        match idxOf? ';' url5 with
        | some i => (url5.take i, url5.drop (i + 1))
        | none => (url5, [])
    else (url5, [])
  { scheme := scheme, netloc := netloc, path := path,
    params := params, query := query, fragment := fragment }

/-! ## `URLCache` (playwright_scraper.py lines 71-103)

The backing `dict[str, str]` is modelled as an insertion-ordered
association list, matching Python dict semantics: assignment to a present
key updates the value in place, assignment to a fresh key appends, and
`next(iter(d))` is the first (oldest) entry. -/

/-- `URLCache._normalize_url`: scheme, netloc and path with trailing
slashes stripped; query and fragment are discarded by the f-string. -/
def normalize_url (url : String) : String :=
  let p := urlparse url.toList
  (p.scheme ++ [':', '/', '/'] ++ p.netloc
    ++ (p.path.reverse.dropWhile (· == '/')).reverse).asString

/-- Python dict assignment `d[k] = v` on an insertion-ordered
association list: a present key keeps its position and gets the new
value, a fresh key is appended at the newest position.  (Python dicts
never hold duplicate keys, so updating the first occurrence is
exhaustive.) -/
def dictSet : List (String × String) → String → String →
    List (String × String)
  | [], k, v => [(k, v)]
  | (a, b) :: t, k, v =>
    if a == k then (k, v) :: t else (a, b) :: dictSet t k v

/-- `URLCache`: bounded in-memory cache. -/
structure URLCache where
  entries : List (String × String) := []
  max_size : Nat := 100
  deriving Repr, DecidableEq

/-- `URLCache.get`. -/
def URLCache.get (c : URLCache) (url : String) : Option String :=
  (c.entries.find? (fun p => p.1 == normalize_url url)).map (·.2)

/-- `URLCache.set`: when the cache already holds at least `max_size`
entries the first (oldest) entry is deleted, then the normalized key is
assigned.  (For `max_size = 0` on an empty cache the Python code would
raise `StopIteration` from `next(iter({}))`; the model drops nothing
there, a corner no claim depends on.) -/
def URLCache.set (c : URLCache) (url content : String) : URLCache :=
  let es := if c.max_size ≤ c.entries.length then c.entries.tail else c.entries
  { c with entries := dictSet es (normalize_url url) content }

/-- `URLCache.has`. -/
def URLCache.has (c : URLCache) (url : String) : Bool :=
  c.entries.any (fun p => p.1 == normalize_url url)

/-- `URLCache.clear`. -/
def URLCache.clear (c : URLCache) : URLCache :=
  { c with entries := [] }

/-! ## `ScraperConfig` and `_handle_route` (playwright_scraper.py) -/

/-- `ScraperConfig` with its default field values. -/
structure ScraperConfig where
  headless : Bool := true
  timeout : Nat := 15000
  block_resources : Bool := true
  blocked_resource_types : List String :=
    ["image", "media", "font", "stylesheet"]
  blocked_domains : List String :=
    ["google-analytics.com", "googletagmanager.com", "facebook.com",
     "doubleclick.net", "ads.", "tracking.", "analytics."]
  user_agent : String :=
    "Mozilla/5.0 (Macintosh; Intel Mac OS X 10_15_7) AppleWebKit/537.36 (KHTML, like Gecko) Chrome/120.0.0.0 Safari/537.36"
  deriving Repr

/-- `DEFAULT_CONFIG = ScraperConfig()`. -/
def DEFAULT_CONFIG : ScraperConfig := {}

/-- Substring occurrence at some position (contiguous). -/
def containsSub (sub : List Char) : List Char → Bool
  | [] => sub.isEmpty
  | c :: t => (c :: t).take sub.length == sub || containsSub sub t

/-- Python `a in b` on strings: substring containment. -/
def pyIn (sub s : String) : Bool :=
  containsSub sub.toList s.toList

/-- What `_handle_route` does with an intercepted request. -/
inductive RouteAction where
  | abort
  | continue_
  deriving Repr, DecidableEq

/-- `_handle_route` (playwright_scraper.py lines 215-231): deny when the
resource type is blocked; else deny when the URL contains any blocked
domain substring; else let the request proceed. -/
def handle_route (config : ScraperConfig) (resource_type url : String) :
    RouteAction :=
  if config.blocked_resource_types.contains resource_type then .abort
  else if config.blocked_domains.any (fun blocked => pyIn blocked url) then
    .abort
  else .continue_

/-! ## `get_page_content` (playwright_scraper.py lines 239-299)

The browser side effects are oracles: each `Except` value records whether
the corresponding Playwright call raises (any `Exception` reaches the
function's outer `try`) and, for navigation, the optional response with
its HTTP status.  The function's control flow — cache check, page
acquisition, navigation, status check, the inner non-fatal selector wait,
extraction, conditional cache write — is translated clause by clause. -/

/-- Oracle for one fetch: page acquisition, `page.goto` (response absent
or with a status), `page.wait_for_selector`, `_extract_main_content`. -/
structure FetchWorld where
  acquire : Except String Unit
  navigate : Except String (Option Nat)
  waitSel : Except String Unit
  extract : Except String String

/-- Extraction step and conditional cache write of `get_page_content`
(`if use_cache and content: cache.set(url, content)`). -/
def extractStep (w : FetchWorld) (cache : URLCache) (url : String)
    (use_cache : Bool) : Option String × URLCache :=
  match w.extract with
  | .error _ => (none, cache)
  | .ok content =>
    let cache' :=
      if use_cache && !(content == "") then cache.set url content else cache
    (some content, cache')

/-- `get_page_content`: returns the extracted text or `none`, together
with the resulting cache state. -/
def get_page_content (w : FetchWorld) (cache : URLCache) (url : String)
    (wait_selector : Option String) (use_cache : Bool) :
    Option String × URLCache :=
  if use_cache && cache.has url then (cache.get url, cache)
  else
    match w.acquire with
    | .error _ => (none, cache)
    | .ok _ =>
      match w.navigate with
      | .error _ => (none, cache)
      | .ok none => (none, cache)
      | .ok (some status) =>
        if 400 ≤ status then (none, cache)
        else
          match wait_selector with
          | some _ =>
            match w.waitSel with
            | .error _ => extractStep w cache url use_cache
            | .ok _ => extractStep w cache url use_cache
          | none => extractStep w cache url use_cache

/-! ## `offers_parser.py`: fetch wrappers -/

/-- `get_page_text_async` (offers_parser.py lines 52-68):
`clean_text` of the content when truthy, else `None`. -/
def get_page_text (w : FetchWorld) (cache : URLCache) (url : String)
    (wait_selector : Option String) : Option String × URLCache :=
  let r := get_page_content w cache url wait_selector true
  match r.1 with
  | some content =>
    if content == "" then (none, r.2) else (some (clean_text content), r.2)
  | none => (none, r.2)

/-- `JOB_SITE_SELECTORS` (offers_parser.py lines 117-125), in dict
insertion order. -/
def JOB_SITE_SELECTORS : List (String × String) :=
  [("linkedin.com", ".jobs-description"),
   ("indeed.com", "#jobDescriptionText"),
   ("glassdoor.com", ".jobDescriptionContent"),
   ("welcometothejungle.com", "[data-testid='job-section-description']"),
   ("lever.co", ".posting-page"),
   ("greenhouse.io", "#content"),
   ("workable.com", "[data-ui='job-description']")]

/-- `_get_wait_selector`: first selector whose domain key occurs in the
URL. -/
def get_wait_selector (url : String) : Option String :=
  (JOB_SITE_SELECTORS.find? (fun p => pyIn p.1 url)).map (·.2)

/-- `get_job_page_async`: `get_page_text` with the site-specific wait
selector. -/
def get_job_page (w : FetchWorld) (cache : URLCache) (url : String) :
    Option String × URLCache :=
  get_page_text w cache url (get_wait_selector url)

/-- `get_multiple_pages` (playwright_scraper.py lines 332-371): fetch the
deduplicated URLs, each with its own oracle, sharing the cache.  The
`asyncio` fan-out is modelled sequentially (each task only touches its
own map slot and the shared cache); `list(set(urls))` has unspecified
order in Python, modelled as first-occurrence deduplication. -/
def get_multiple_pages (worlds : String → FetchWorld) (cache : URLCache)
    (urls : List String) (wait_selector : Option String) (use_cache : Bool) :
    List (String × Option String) × URLCache :=
  (urls.eraseDups).foldl
    (fun (acc : List (String × Option String) × URLCache) url =>
      let r := get_page_content (worlds url) acc.2 url wait_selector use_cache
      (acc.1 ++ [(url, r.1)], r.2))
    ([], cache)

/-- `get_job_pages_async` (offers_parser.py lines 166-190): fetch all
pages, then `clean_text(content) if content else None` per entry. -/
def get_job_pages (worlds : String → FetchWorld) (cache : URLCache)
    (urls : List String) : List (String × Option String) × URLCache :=
  let r := get_multiple_pages worlds cache urls none true
  (r.1.map (fun p =>
    (p.1,
      match p.2 with
      | some content =>
        if content == "" then none else some (clean_text content)
      | none => none)), r.2)

/-! ## `offers_finder.py`: card extraction and multi-source search -/

/-- One result card as seen by `_extract_job_card`:
`link_href = none` models a card without a link element,
`some none` a link element whose `href` attribute is absent, and the
sub-fields the optional title/company/location elements' inner text. -/
structure JobCard where
  link_href : Option (Option String)
  title : Option String := none
  company : Option String := none
  location : Option String := none

/-- A card with a link element carrying an `href`: exactly the cards that
`_extract_job_card` does not skip. -/
def hasResolvableLink (card : JobCard) : Bool :=
  match card.link_href with
  | some (some _) => true
  | _ => false

/-- `JobSearchResult` (offers_finder.py lines 20-28). -/
structure JobSearchResult where
  url : String
  title : Option String := none
  company : Option String := none
  location : Option String := none
  source : String := ""
  deriving Repr, DecidableEq

/-- `_extract_job_card` (offers_finder.py lines 36-95): iterate over
`cards[:max_results]`, skip cards without a link element or without an
`href`, absolutize relative URLs with `urljoin` (an external stdlib
function, passed as a parameter since no claim depends on its
arithmetic), and collect the remaining fields best-effort.  The per-card
`except Exception: continue` has no counterpart because the modelled
sub-extractions are pure. -/
def extract_job_card (urljoin : String → String → String)
    (cards : List JobCard) (source : String) (max_results : Nat)
    (base_url : String) : List JobSearchResult :=
  (cards.take max_results).filterMap (fun card =>
    match card.link_href with
    | none => none
    | some none => none
    | some (some url0) =>
      let url :=
        if url0.startsWith "http://" || url0.startsWith "https://" then url0
        else urljoin base_url url0
      some { url := url, title := card.title, company := card.company,
             location := card.location, source := source })

/-- Oracle for one multi-source search: the outcome of each
network-backed source searcher.  `search_indeed_async` and
`search_wttj_async` catch `Exception` internally and return `[]`, but an
escaping raise (a `BaseException`, e.g. task cancellation) is still
possible; the oracle records the whole per-source outcome as the
orchestrator's `asyncio.gather(…, return_exceptions=True)` sees it. -/
structure SearchWorld where
  indeed : Except String (List JobSearchResult)
  wttj : Except String (List JobSearchResult)

/-- `search_indeed_async` outcome. -/
def search_indeed_async (w : SearchWorld) :
    Except String (List JobSearchResult) := w.indeed

/-- `search_wttj_async` outcome. -/
def search_wttj_async (w : SearchWorld) :
    Except String (List JobSearchResult) := w.wttj

/-- `search_linkedin_async` (offers_finder.py lines 217-230): explicit
no-op, logs a warning and returns the empty list without raising. -/
def search_linkedin_async (_ : SearchWorld) :
    Except String (List JobSearchResult) := .ok []

/-- `search_glassdoor_async` (offers_finder.py lines 242-255): explicit
no-op, returns the empty list without raising. -/
def search_glassdoor_async (_ : SearchWorld) :
    Except String (List JobSearchResult) := .ok []

/-- `SOURCES_ASYNC` registry, in dict insertion order. -/
def SOURCES_ASYNC :
    List (String × (SearchWorld → Except String (List JobSearchResult))) :=
  [("indeed", search_indeed_async), ("wttj", search_wttj_async),
   ("linkedin", search_linkedin_async), ("glassdoor", search_glassdoor_async)]

/-- `DEFAULT_SOURCES = ["indeed", "wttj"]`. -/
def DEFAULT_SOURCES : List String := ["indeed", "wttj"]

/-- `search_jobs_async` (offers_finder.py lines 295-352): skip unknown
source names, run the known sources (in request order, as
`asyncio.gather` preserves task order), then flatten the outcomes,
dropping any that are exceptions. -/
def search_jobs_async (w : SearchWorld) (sources : Option (List String)) :
    List JobSearchResult :=
  let srcs := sources.getD DEFAULT_SOURCES
  let results_lists := srcs.filterMap (fun s =>
    (SOURCES_ASYNC.find? (fun p => p.1 == s)).map (fun p => p.2 w))
  results_lists.foldl (fun acc r =>
    match r with
    | .ok results => acc ++ results
    | .error _ => acc) []

/-! ## Analysis predicates for the cleaning pipeline

These predicates are not part of the source; they characterize the
whitespace-normal texts on which each cleaning pass acts as the
identity, and a restricted alphabet used to state the boilerplate
removal property. -/

/-- A character a whitespace-normalized text may contain: anything that
is neither Python whitespace nor a line boundary, plus the plain space
and the newline. -/
def okChar (c : Char) : Bool :=
  (!(pyIsSpace c) && !(isLineBreak c)) || c == ' ' || c == '\n'

/-- A space or newline. -/
def spacey (c : Char) : Bool :=
  c == ' ' || c == '\n'

/-- No two adjacent characters are both space/newline: no run of spaces,
no space next to a newline, no empty line. -/
def noBadPair : List Char → Bool
  | [] => true
  | [_] => true
  | a :: b :: rest => !(spacey a && spacey b) && noBadPair (b :: rest)

/-- Whitespace-normal text: only `okChar` characters, no adjacent
space/newline pair, and no space/newline at either end.  This is the
shape of the output of line-joining plus the three whitespace passes. -/
def isNormal (t : List Char) : Bool :=
  t.all okChar && noBadPair t &&
  !(t.head?.elim false spacey) && !(t.getLast?.elim false spacey)

/-- A restricted alphabet (plain letters away from every boilerplate
trigger) used to state the boilerplate-removal property over a family of
inputs. -/
def safeChar (c : Char) : Bool :=
  c == 'x' || c == 'y' || c == 'z'

/-- `m` can never match at a position whose first character is `c`. -/
def FailsOn (m : List Char → Option Nat) (c : Char) : Prop :=
  ∀ l : List Char, m (c :: l) = none

/-! # Shared lemmas -/

theorem length_filterMap_eq_length_filter {α β : Type} (f : α → Option β)
    (p : α → Bool) (h : ∀ a, (f a).isSome = p a) :
    ∀ l : List α, (l.filterMap f).length = (l.filter p).length := by
  intro l
  induction l with
  | nil => rfl
  | cons a t ih =>
    have ha := h a
    cases hfa : f a with
    | none =>
      rw [hfa] at ha
      simp only [List.filterMap_cons, hfa, List.filter_cons, ← ha,
        Option.isSome_none]
      exact ih
    | some b =>
      rw [hfa] at ha
      simp only [List.filterMap_cons, hfa, List.filter_cons, ← ha,
        Option.isSome_some, List.length_cons]
      simp only [ih, cond_true]
      simp

theorem dictSet_length (es : List (String × String)) (k v : String) :
    (dictSet es k v).length
      = if es.any (fun p => p.1 == k) then es.length else es.length + 1 := by
  induction es with
  | nil => rfl
  | cons a t ih =>
    obtain ⟨a1, a2⟩ := a
    by_cases h : (a1 == k) = true
    · simp [dictSet, h]
    · rw [Bool.not_eq_true] at h
      simp only [dictSet, h, List.any_cons, Bool.false_or, List.length_cons,
        Bool.false_eq_true, if_false]
      rw [ih]
      by_cases h2 : t.any (fun p => p.1 == k) = true
      · rw [if_pos h2, if_pos h2]
      · rw [if_neg h2, if_neg h2]

theorem dictSet_find (es : List (String × String)) (k v : String) :
    (dictSet es k v).find? (fun p => p.1 == k) = some (k, v) := by
  induction es with
  | nil => simp [dictSet]
  | cons a t ih =>
    obtain ⟨a1, a2⟩ := a
    by_cases h : (a1 == k) = true
    · simp [dictSet, h]
    · rw [Bool.not_eq_true] at h
      simp [dictSet, h, ih]

theorem dictSet_all (es : List (String × String)) (k v : String)
    (q : String × String → Bool) (hes : es.all q = true)
    (hkv : q (k, v) = true) : (dictSet es k v).all q = true := by
  induction es with
  | nil => simpa [dictSet] using hkv
  | cons a t ih =>
    obtain ⟨a1, a2⟩ := a
    rw [List.all_cons, Bool.and_eq_true] at hes
    by_cases h : (a1 == k) = true
    · simp only [dictSet, h, if_true, List.all_cons, hkv, Bool.true_and]
      exact hes.2
    · rw [Bool.not_eq_true] at h
      simp only [dictSet, h, List.all_cons, hes.1, Bool.true_and,
        Bool.false_eq_true, if_false]
      exact ih hes.2

theorem URLCache.get_set_of_norm_eq (c : URLCache) (u1 u2 v : String)
    (h : normalize_url u1 = normalize_url u2) :
    (c.set u1 v).get u2 = some v := by
  show ((dictSet (if c.max_size ≤ c.entries.length then c.entries.tail
      else c.entries) (normalize_url u1) v).find?
      (fun p => p.1 == normalize_url u2)).map (fun p => p.2) = some v
  rw [← h, dictSet_find]
  rfl

theorem dictSet_append_of_all_ne (es : List (String × String)) (k v : String)
    (hes : es.all (fun p => !(p.1 == k)) = true) :
    dictSet es k v = es ++ [(k, v)] := by
  induction es with
  | nil => rfl
  | cons a t ih =>
    obtain ⟨a1, a2⟩ := a
    rw [List.all_cons, Bool.and_eq_true] at hes
    have h : (a1 == k) = false := by
      have := hes.1
      simpa using this
    simp only [dictSet, h, Bool.false_eq_true, if_false, List.cons_append,
      List.cons.injEq, true_and]
    exact ih hes.2

theorem okChar_not_pyspace (c : Char) (hok : okChar c = true)
    (hsp : spacey c = false) : pyIsSpace c = false := by
  simp only [spacey, Bool.or_eq_false_iff] at hsp
  simp only [okChar, Bool.or_eq_true, Bool.and_eq_true] at hok
  rcases hok with (⟨h1, _⟩ | h2) | h3
  · simpa using h1
  · rw [h2] at hsp
    exact absurd hsp.1 (by simp)
  · rw [h3] at hsp
    exact absurd hsp.2 (by simp)

theorem okChar_not_break (c : Char) (hok : okChar c = true)
    (hnl : (c == '\n') = false) : isLineBreak c = false := by
  simp only [okChar, Bool.or_eq_true, Bool.and_eq_true] at hok
  rcases hok with (⟨_, h2⟩ | h2) | h3
  · simpa using h2
  · rw [eq_of_beq h2]
    decide
  · rw [h3] at hnl
    exact Bool.noConfusion hnl

theorem okChar_not_tab (c : Char) (hok : okChar c = true) :
    (c == '\t') = false := by
  by_contra h
  rw [Bool.not_eq_false] at h
  rw [eq_of_beq h] at hok
  exact absurd hok (by decide)

theorem pystrip_eq_self (t : List Char)
    (hh : t.head?.elim true (fun c => !(pyIsSpace c)) = true)
    (hl : t.getLast?.elim true (fun c => !(pyIsSpace c)) = true) :
    pystrip t = t := by
  unfold pystrip
  have h1 : t.dropWhile pyIsSpace = t := by
    cases t with
    | nil => rfl
    | cons c rest =>
      apply List.dropWhile_cons_of_neg
      simpa using hh
  rw [h1]
  have h2 : t.reverse.dropWhile pyIsSpace = t.reverse := by
    cases hrev : t.reverse with
    | nil => rfl
    | cons c r =>
      have hc : t.getLast? = some c := by
        rw [← List.head?_reverse, hrev]
        rfl
      rw [hc] at hl
      exact List.dropWhile_cons_of_neg (by simpa using hl)
  rw [h2, List.reverse_reverse]

theorem noBadPair_tail (c : Char) (rest : List Char)
    (h : noBadPair (c :: rest) = true) : noBadPair rest = true := by
  cases rest with
  | nil => rfl
  | cons b r =>
    simp only [noBadPair, Bool.and_eq_true] at h
    exact h.2

theorem noBadPair_pair (a b : Char) (r : List Char)
    (h : noBadPair (a :: b :: r) = true) (ha : spacey a = true) :
    spacey b = false := by
  simp only [noBadPair, Bool.and_eq_true] at h
  have h1 := h.1
  rw [Bool.not_eq_true', Bool.and_eq_false_iff] at h1
  rcases h1 with h1 | h1
  · rw [ha] at h1
    exact Bool.noConfusion h1
  · exact h1

theorem isNormal_parts (t : List Char) (h : isNormal t = true) :
    t.all okChar = true ∧ noBadPair t = true ∧
    t.head?.elim false spacey = false ∧
    t.getLast?.elim false spacey = false := by
  simp only [isNormal, Bool.and_eq_true, Bool.not_eq_true'] at h
  exact ⟨h.1.1.1, h.1.1.2, h.1.2, h.2⟩

theorem subNL3Go_eq_self (t : List Char) : ∀ k : Nat,
    noBadPair t = true →
    (2 ≤ k → t.head?.elim true (fun c => !(c == '\n')) = true) →
    subNL3Go k t = t := by
  induction t with
  | nil => intro k _ _; rfl
  | cons c rest ih =>
    intro k hpair hk
    by_cases hc : (c == '\n') = true
    · have hk2 : ¬ 2 ≤ k := by
        intro h2
        have := hk h2
        simp only [Option.elim, List.head?] at this
        rw [hc] at this
        exact Bool.noConfusion this
      obtain rfl := eq_of_beq hc
      simp only [subNL3Go, beq_self_eq_true, if_true, hk2, if_false]
      congr 1
      apply ih (k + 1) (noBadPair_tail _ _ hpair)
      intro _
      cases rest with
      | nil => rfl
      | cons b r =>
        have hb := noBadPair_pair '\n' b r hpair (by decide)
        simp only [spacey, Bool.or_eq_false_iff] at hb
        simp [hb.2]
    · rw [Bool.not_eq_true] at hc
      simp only [subNL3Go, hc, Bool.false_eq_true, if_false]
      congr 1
      exact ih 0 (noBadPair_tail _ _ hpair) (fun h2 => absurd h2 (by omega))

theorem subSpTabGo_eq_self (t : List Char) : ∀ inRun : Bool,
    t.all okChar = true → noBadPair t = true →
    (inRun = true → t.head?.elim true (fun c => !(c == ' ')) = true) →
    subSpTabGo inRun t = t := by
  induction t with
  | nil => intro r _ _ _; rfl
  | cons c rest ih =>
    intro inRun hall hpair hrun
    rw [List.all_cons, Bool.and_eq_true] at hall
    by_cases hsp : (c == ' ' || c == '\t') = true
    · have htab : (c == '\t') = false := okChar_not_tab c hall.1
      have hcsp : (c == ' ') = true := by
        rcases Bool.or_eq_true_iff.mp hsp with h | h
        · exact h
        · rw [htab] at h
          exact Bool.noConfusion h
      have hrf : inRun = false := by
        cases hr : inRun with
        | false => rfl
        | true =>
          have := hrun hr
          simp only [Option.elim, List.head?] at this
          rw [hcsp] at this
          exact Bool.noConfusion this
      obtain rfl := eq_of_beq hcsp
      simp only [subSpTabGo, hsp, if_true, hrf, Bool.false_eq_true, if_false]
      congr 1
      apply ih true hall.2 (noBadPair_tail _ _ hpair)
      intro _
      cases rest with
      | nil => rfl
      | cons b r =>
        have hb := noBadPair_pair ' ' b r hpair (by decide)
        simp only [spacey, Bool.or_eq_false_iff] at hb
        simp [hb.1]
    · rw [Bool.not_eq_true] at hsp
      simp only [subSpTabGo, hsp, Bool.false_eq_true, if_false]
      congr 1
      exact ih false hall.2 (noBadPair_tail _ _ hpair)
        (fun h => Bool.noConfusion h)

theorem subSpNLGo_eq_self (t : List Char) : ∀ (aft : Bool) (p : Nat),
    noBadPair t = true →
    (p = 0 ∨ (p = 1 ∧ aft = false ∧
      t.head?.elim true (fun c => !(spacey c)) = true)) →
    (aft = true → t.head?.elim true (fun c => !(c == ' ')) = true) →
    subSpNLGo aft p t = List.replicate p ' ' ++ t := by
  induction t with
  | nil => intro aft p _ _ _; simp [subSpNLGo]
  | cons c rest ih =>
    intro aft p hpair hp haft
    by_cases hnl : (c == '\n') = true
    · have hp0 : p = 0 := by
        rcases hp with h | ⟨_, _, hd⟩
        · exact h
        · simp only [Option.elim, List.head?] at hd
          rw [Bool.not_eq_true'] at hd
          rw [show spacey c = true by simp [spacey, hnl]] at hd
          exact Bool.noConfusion hd
      subst hp0
      obtain rfl := eq_of_beq hnl
      simp only [subSpNLGo, beq_self_eq_true, if_true, List.replicate,
        List.nil_append]
      congr 1
      have := ih true 0 (noBadPair_tail _ _ hpair) (Or.inl rfl) ?_
      · simpa using this
      · intro _
        cases rest with
        | nil => rfl
        | cons b r =>
          have hb := noBadPair_pair '\n' b r hpair (by decide)
          simp only [spacey, Bool.or_eq_false_iff] at hb
          simp [hb.1]
    · by_cases hsp : (c == ' ') = true
      · have haf : aft = false := by
          cases ha : aft with
          | false => rfl
          | true =>
            have := haft ha
            simp only [Option.elim, List.head?] at this
            rw [hsp] at this
            exact Bool.noConfusion this
        have hp0 : p = 0 := by
          rcases hp with h | ⟨_, _, hd⟩
          · exact h
          · simp only [Option.elim, List.head?] at hd
            rw [Bool.not_eq_true'] at hd
            rw [show spacey c = true by simp [spacey, hsp]] at hd
            exact Bool.noConfusion hd
        subst hp0
        rw [Bool.not_eq_true] at hnl
        obtain rfl := eq_of_beq hsp
        simp only [subSpNLGo, hnl, Bool.false_eq_true, if_false,
          beq_self_eq_true, if_true, haf, List.replicate, List.nil_append]
        have hrest : subSpNLGo false 1 rest = List.replicate 1 ' ' ++ rest := by
          apply ih false 1 (noBadPair_tail _ _ hpair)
          · right
            refine ⟨rfl, rfl, ?_⟩
            cases rest with
            | nil => rfl
            | cons b r =>
              have hb := noBadPair_pair ' ' b r hpair (by decide)
              simp [hb]
          · intro h
            exact Bool.noConfusion h
        rw [hrest]
        rfl
      · rw [Bool.not_eq_true] at hnl hsp
        simp only [subSpNLGo, hnl, hsp, Bool.false_eq_true, if_false]
        have hrest := ih false 0 (noBadPair_tail _ _ hpair) (Or.inl rfl)
          (fun h => Bool.noConfusion h)
        rw [hrest]
        simp

theorem mem_of_head_eq (l : List Char) (c : Char) (h : l.head? = some c) :
    c ∈ l := by
  cases l with
  | nil => exact absurd h (by simp)
  | cons a r =>
    rw [List.head?_cons, Option.some.injEq] at h
    rw [← h]
    exact List.mem_cons_self a r

theorem mem_of_getLast_eq (l : List Char) (c : Char) (h : l.getLast? = some c) :
    c ∈ l := by
  rw [← List.head?_reverse] at h
  rw [← List.mem_reverse]
  exact mem_of_head_eq _ _ h

theorem head_append_of_ne_nil (a b : List Char) (ha : a ≠ []) :
    (a ++ b).head? = a.head? := by
  cases a with
  | nil => exact absurd rfl ha
  | cons c r => rfl

theorem dropWhile_head_false {α : Type} (p : α → Bool) (l : List α) (d : α)
    (r : List α) (h : l.dropWhile p = d :: r) : p d = false := by
  induction l with
  | nil => exact absurd h (by simp)
  | cons c l' ih =>
    rw [List.dropWhile_cons] at h
    by_cases hc : p c = true
    · rw [if_pos hc] at h
      exact ih h
    · rw [if_neg hc, List.cons.injEq] at h
      rw [← h.1]
      exact Bool.not_eq_true _ ▸ hc

theorem takeWhile_all {α : Type} (p : α → Bool) (l : List α) :
    (l.takeWhile p).all p = true := by
  induction l with
  | nil => rfl
  | cons c l' ih =>
    rw [List.takeWhile_cons]
    by_cases hc : p c = true
    · rw [if_pos hc, List.all_cons, hc, Bool.true_and]
      exact ih
    · rw [if_neg hc]
      rfl

theorem mem_takeWhile_mem {α : Type} (p : α → Bool) (l : List α) :
    ∀ x ∈ l.takeWhile p, x ∈ l := by
  induction l with
  | nil => intro x hx; exact absurd hx (by simp)
  | cons c l' ih =>
    intro x hx
    rw [List.takeWhile_cons] at hx
    by_cases hc : p c = true
    · rw [if_pos hc, List.mem_cons] at hx
      rcases hx with hx | hx
      · rw [hx]; exact List.mem_cons_self c l'
      · exact List.mem_cons_of_mem c (ih x hx)
    · rw [if_neg hc] at hx
      exact absurd hx (by simp)

theorem noBadPair_append_right (a b : List Char)
    (h : noBadPair (a ++ b) = true) : noBadPair b = true := by
  induction a with
  | nil => exact h
  | cons c a' ih =>
    rw [List.cons_append] at h
    exact ih (noBadPair_tail _ _ h)

theorem noBadPair_nl_head (rest : List Char)
    (h : noBadPair ('\n' :: rest) = true) :
    rest.head?.elim false spacey = false := by
  cases rest with
  | nil => rfl
  | cons b r =>
    have := noBadPair_pair '\n' b r h (by decide)
    simpa using this

theorem noBadPair_pair2 (a b : Char) (r : List Char)
    (h : noBadPair (a :: b :: r) = true) (hb : spacey b = true) :
    spacey a = false := by
  simp only [noBadPair, Bool.and_eq_true] at h
  have h1 := h.1
  rw [Bool.not_eq_true', Bool.and_eq_false_iff] at h1
  rcases h1 with h1 | h1
  · exact h1
  · rw [hb] at h1
    exact Bool.noConfusion h1

theorem noBadPair_last_before_nl (l1 rest : List Char) (hne : l1 ≠ [])
    (h : noBadPair (l1 ++ '\n' :: rest) = true) :
    l1.getLast?.elim true (fun x => !(spacey x)) = true := by
  induction l1 with
  | nil => exact absurd rfl hne
  | cons x l1' ih =>
    cases l1' with
    | nil =>
      rw [List.cons_append, List.nil_append] at h
      have hx := noBadPair_pair2 x '\n' rest h (by decide)
      simp [hx]
    | cons y l1'' =>
      rw [List.getLast?_cons_cons]
      apply ih (by simp)
      rw [List.cons_append] at h
      exact noBadPair_tail _ _ h

theorem pysplitlines_cons_nl (rest : List Char) :
    pysplitlines ('\n' :: rest) = [] :: pysplitlines rest := rfl

theorem pysplitlines_cons_of_not_break (c : Char) (rest : List Char)
    (h : isLineBreak c = false) :
    pysplitlines (c :: rest)
      = match pysplitlines rest with
        | [] => [[c]]
        | l :: ls => (c :: l) :: ls := by
  have hcr : c ≠ '\r' := by
    intro he
    rw [he] at h
    exact absurd h (by decide)
  rw [pysplitlines.eq_def]
  split
  · simp_all
  · rename_i heq
    rw [List.cons.injEq] at heq
    exact absurd heq.1 hcr
  · rename_i x2 c2 r2 hno heq
    rw [List.cons.injEq] at heq
    obtain ⟨h1, h2⟩ := heq
    subst h1
    subst h2
    rw [h]
    simp

theorem pysplitlines_append_nl (l1 rest : List Char)
    (h : l1.all (fun c => !(isLineBreak c)) = true) :
    pysplitlines (l1 ++ '\n' :: rest) = l1 :: pysplitlines rest := by
  induction l1 with
  | nil =>
    rw [List.nil_append, pysplitlines_cons_nl]
  | cons c l1' ih =>
    rw [List.all_cons, Bool.and_eq_true] at h
    have hc : isLineBreak c = false := by simpa using h.1
    rw [List.cons_append, pysplitlines_cons_of_not_break c _ hc, ih h.2]

theorem pysplitlines_no_break (t : List Char) (hne : t ≠ [])
    (h : t.all (fun c => !(isLineBreak c)) = true) :
    pysplitlines t = [t] := by
  induction t with
  | nil => exact absurd rfl hne
  | cons c rest ih =>
    rw [List.all_cons, Bool.and_eq_true] at h
    have hc : isLineBreak c = false := by simpa using h.1
    rw [pysplitlines_cons_of_not_break c rest hc]
    cases rest with
    | nil => rfl
    | cons d r =>
      rw [ih (by simp) h.2]

theorem joinNL_cons_ne (l : List Char) (L : List (List Char)) (h : L ≠ []) :
    joinNL (l :: L) = l ++ '\n' :: joinNL L := by
  cases L with
  | nil => exact absurd rfl h
  | cons l2 L' => rfl

theorem normJoin_bounded : ∀ (n : Nat) (t : List Char), t.length ≤ n →
    isNormal t = true →
    joinNL (((pysplitlines t).map pystrip).filter (fun l => !l.isEmpty)) = t := by
  intro n
  induction n with
  | zero =>
    intro t hlen _
    have ht : t = [] := by
      cases t with
      | nil => rfl
      | cons c r => simp at hlen
    subst ht
    rfl
  | succ n ih =>
    intro t hlen hnorm
    obtain ⟨hall0, hpair, hhead, hlast⟩ := isNormal_parts t hnorm
    rw [List.all_eq_true] at hall0
    by_cases ht0 : t = []
    · subst ht0; rfl
    · have hsplit : t.takeWhile (fun c => !(c == '\n'))
          ++ t.dropWhile (fun c => !(c == '\n')) = t :=
        List.takeWhile_append_dropWhile _ _
      have hl1p : (t.takeWhile (fun c => !(c == '\n'))).all
          (fun c => !(c == '\n')) = true := takeWhile_all _ _
      have hl1mem : ∀ x ∈ t.takeWhile (fun c => !(c == '\n')), x ∈ t :=
        mem_takeWhile_mem _ _
      cases hd : t.dropWhile (fun c => !(c == '\n')) with
      | nil =>
        have hallnl := List.dropWhile_eq_nil_iff.mp hd
        have hbrk : t.all (fun c => !(isLineBreak c)) = true := by
          rw [List.all_eq_true]
          intro x hx
          have hx1 := hallnl x hx
          have : isLineBreak x = false :=
            okChar_not_break x (hall0 x hx) (by simpa using hx1)
          simp [this]
        rw [pysplitlines_no_break t ht0 hbrk]
        have hstrip : pystrip t = t := by
          apply pystrip_eq_self
          · cases hh : t.head? with
            | none => rfl
            | some c0 =>
              rw [hh] at hhead
              have : pyIsSpace c0 = false :=
                okChar_not_pyspace c0 (hall0 c0 (mem_of_head_eq t c0 hh))
                  (by simpa using hhead)
              simp [this]
          · cases hh : t.getLast? with
            | none => rfl
            | some c1 =>
              rw [hh] at hlast
              have : pyIsSpace c1 = false :=
                okChar_not_pyspace c1 (hall0 c1 (mem_of_getLast_eq t c1 hh))
                  (by simpa using hlast)
              simp [this]
        have hne' : (!t.isEmpty) = true := by
          cases t with
          | nil => exact absurd rfl ht0
          | cons c r => rfl
        simp only [List.map_cons, List.map_nil, hstrip, List.filter, hne']
        rfl
      | cons d rest =>
        have hdnl : d = '\n' := by
          have hpd := dropWhile_head_false _ t d rest hd
          have : (d == '\n') = true := by simpa using hpd
          exact eq_of_beq this
        subst hdnl
        rw [hd] at hsplit
        have heq : t = t.takeWhile (fun c => !(c == '\n')) ++ '\n' :: rest :=
          hsplit.symm
        have hl1ne : t.takeWhile (fun c => !(c == '\n')) ≠ [] := by
          intro h0
          rw [h0, List.nil_append] at heq
          rw [heq] at hhead
          exact absurd hhead (by simp [spacey])
        have hl1brk : (t.takeWhile (fun c => !(c == '\n'))).all
            (fun c => !(isLineBreak c)) = true := by
          rw [List.all_eq_true]
          intro x hx
          rw [List.all_eq_true] at hl1p
          have : isLineBreak x = false :=
            okChar_not_break x (hall0 x (hl1mem x hx))
              (by simpa using hl1p x hx)
          simp [this]
        have hsplitl : pysplitlines t
            = t.takeWhile (fun c => !(c == '\n')) :: pysplitlines rest := by
          have hs := pysplitlines_append_nl
            (t.takeWhile (fun c => !(c == '\n'))) rest hl1brk
          rw [← heq] at hs
          exact hs
        have hpair' : noBadPair (t.takeWhile (fun c => !(c == '\n'))
            ++ '\n' :: rest) = true := heq ▸ hpair
        have hpairnl : noBadPair ('\n' :: rest) = true :=
          noBadPair_append_right _ _ hpair'
        have hrestne : rest ≠ [] := by
          intro h0
          subst h0
          rw [heq] at hlast
          rw [List.getLast?_append_of_ne_nil _ (by simp)] at hlast
          exact absurd hlast (by simp [spacey])
        have hallrest : ∀ x ∈ rest, okChar x = true := by
          intro x hx
          apply hall0
          rw [heq]
          exact List.mem_append_right _ (List.mem_cons_of_mem _ hx)
        have hheadrest : rest.head?.elim false spacey = false :=
          noBadPair_nl_head rest hpairnl
        have hlastrest : rest.getLast?.elim false spacey = false := by
          rw [heq] at hlast
          rw [List.getLast?_append_of_ne_nil _ (by simp)] at hlast
          cases rest with
          | nil => exact absurd rfl hrestne
          | cons r0 rs =>
            rw [List.getLast?_cons_cons] at hlast
            exact hlast
        have hnormrest : isNormal rest = true := by
          simp only [isNormal, Bool.and_eq_true, Bool.not_eq_true']
          exact ⟨⟨⟨List.all_eq_true.mpr hallrest,
            noBadPair_tail _ _ hpairnl⟩, hheadrest⟩, hlastrest⟩
        have hlenrest : rest.length ≤ n := by
          have hlt := congrArg List.length heq
          rw [List.length_append, List.length_cons] at hlt
          omega
        have IH := ih rest hlenrest hnormrest
        have hl1head : (t.takeWhile (fun c => !(c == '\n'))).head?
            = t.head? := by
          conv_rhs => rw [heq]
          exact (head_append_of_ne_nil _ _ hl1ne).symm
        have hstripl1 : pystrip (t.takeWhile (fun c => !(c == '\n')))
            = t.takeWhile (fun c => !(c == '\n')) := by
          apply pystrip_eq_self
          · cases hh : (t.takeWhile (fun c => !(c == '\n'))).head? with
            | none => rfl
            | some c0 =>
              rw [hl1head] at hh
              rw [hh] at hhead
              have : pyIsSpace c0 = false :=
                okChar_not_pyspace c0 (hall0 c0 (mem_of_head_eq t c0 hh))
                  (by simpa using hhead)
              simp [this]
          · have hlb := noBadPair_last_before_nl _ rest hl1ne hpair'
            cases hh : (t.takeWhile (fun c => !(c == '\n'))).getLast? with
            | none => rfl
            | some c1 =>
              rw [hh] at hlb
              have hsp : spacey c1 = false := by simpa using hlb
              have : pyIsSpace c1 = false :=
                okChar_not_pyspace c1
                  (hall0 c1 (hl1mem c1 (mem_of_getLast_eq _ c1 hh))) hsp
              simp [this]
        have hl1nonempty : (!(t.takeWhile
            (fun c => !(c == '\n'))).isEmpty) = true := by
          cases hcw : t.takeWhile (fun c => !(c == '\n')) with
          | nil => exact absurd hcw hl1ne
          | cons a b => rfl
        rw [hsplitl]
        simp only [List.map_cons, hstripl1, List.filter_cons, hl1nonempty,
          if_true]
        have hLne : (((pysplitlines rest).map pystrip).filter
            (fun l => !l.isEmpty)) ≠ [] := by
          intro h0
          rw [h0] at IH
          exact hrestne IH.symm
        rw [joinNL_cons_ne _ _ hLne, IH]
        exact heq.symm

theorem subNL3_eq_self (t : List Char) (h : isNormal t = true) :
    subNL3 t = t :=
  subNL3Go_eq_self t 0 (isNormal_parts t h).2.1 (fun h2 => absurd h2 (by omega))

theorem subSpTab_eq_self (t : List Char) (h : isNormal t = true) :
    subSpTab t = t := by
  obtain ⟨hall, hpair, _, _⟩ := isNormal_parts t h
  exact subSpTabGo_eq_self t false hall hpair (fun h => Bool.noConfusion h)

theorem subSpNL_eq_self (t : List Char) (h : isNormal t = true) :
    subSpNL t = t := by
  obtain ⟨_, hpair, _, _⟩ := isNormal_parts t h
  have := subSpNLGo_eq_self t false 0 hpair (Or.inl rfl)
    (fun h => Bool.noConfusion h)
  simpa using this

theorem isNormal_head_nospace (t : List Char) (h : isNormal t = true) :
    t.head?.elim true (fun c => !(pyIsSpace c)) = true := by
  obtain ⟨hall, _, hhead, _⟩ := isNormal_parts t h
  rw [List.all_eq_true] at hall
  cases hh : t.head? with
  | none => rfl
  | some c0 =>
    rw [hh] at hhead
    have : pyIsSpace c0 = false :=
      okChar_not_pyspace c0 (hall c0 (mem_of_head_eq t c0 hh))
        (by simpa using hhead)
    simp [this]

theorem isNormal_last_nospace (t : List Char) (h : isNormal t = true) :
    t.getLast?.elim true (fun c => !(pyIsSpace c)) = true := by
  obtain ⟨hall, _, _, hlast⟩ := isNormal_parts t h
  rw [List.all_eq_true] at hall
  cases hh : t.getLast? with
  | none => rfl
  | some c1 =>
    rw [hh] at hlast
    have : pyIsSpace c1 = false :=
      okChar_not_pyspace c1 (hall c1 (mem_of_getLast_eq t c1 hh))
        (by simpa using hlast)
    simp [this]

theorem cleanTextL_fixpoint (t : List Char) (h1 : isNormal t = true)
    (h2 : boilerAll t = t) : cleanTextL t = t := by
  unfold cleanTextL
  rw [normJoin_bounded t.length t le_rfl h1]
  unfold cleanHtmlTextL
  by_cases ht : t.isEmpty = true
  · rw [if_pos ht]
    cases t with
    | nil => rfl
    | cons c r => exact absurd ht (by simp)
  · rw [if_neg ht, subNL3_eq_self t h1, subSpTab_eq_self t h1,
      subSpNL_eq_self t h1, h2]
    exact pystrip_eq_self t (isNormal_head_nospace t h1)
      (isNormal_last_nospace t h1)

theorem safeChar_cases (ch : Char) (h : safeChar ch = true) :
    ch = 'x' ∨ ch = 'y' ∨ ch = 'z' := by
  simp only [safeChar, Bool.or_eq_true, beq_iff_eq] at h
  tauto

theorem safeChar_not_spacey (ch : Char) (h : safeChar ch = true) :
    spacey ch = false := by
  rcases safeChar_cases ch h with rfl | rfl | rfl <;> decide

theorem safeChar_not_pyspace (ch : Char) (h : safeChar ch = true) :
    pyIsSpace ch = false := by
  rcases safeChar_cases ch h with rfl | rfl | rfl <;> decide

theorem safeChar_ok (ch : Char) (h : safeChar ch = true) :
    okChar ch = true := by
  rcases safeChar_cases ch h with rfl | rfl | rfl <;> decide

theorem safeChar_not_nl (ch : Char) (h : safeChar ch = true) :
    (ch == '\n') = false := by
  rcases safeChar_cases ch h with rfl | rfl | rfl <;> decide

theorem all_safe_last_not_spacey (l : List Char) (h : l.all safeChar = true) :
    l.getLast?.elim false spacey = false := by
  rw [List.all_eq_true] at h
  cases hl : l.getLast? with
  | none => rfl
  | some ch =>
    have := safeChar_not_spacey ch (h ch (mem_of_getLast_eq l ch hl))
    simpa using this

theorem noBadPair_of_all_nonspacey (l : List Char)
    (h : ∀ ch ∈ l, spacey ch = false) : noBadPair l = true := by
  induction l with
  | nil => rfl
  | cons c rest ih =>
    cases rest with
    | nil => rfl
    | cons b r =>
      simp only [noBadPair, Bool.and_eq_true]
      constructor
      · rw [h c (by simp)]
        rfl
      · exact ih (fun ch hch => h ch (List.mem_cons_of_mem c hch))

theorem noBadPair_cons (c : Char) (l : List Char) (hl : noBadPair l = true)
    (hedge : (spacey c && l.head?.elim false spacey) = false) :
    noBadPair (c :: l) = true := by
  cases l with
  | nil => rfl
  | cons b r =>
    simp only [noBadPair, Bool.and_eq_true]
    refine ⟨?_, hl⟩
    simp only [List.head?_cons, Option.elim] at hedge
    simp [hedge]

theorem noBadPair_append (x y : List Char) (hx : noBadPair x = true)
    (hy : noBadPair y = true)
    (hedge : (x.getLast?.elim false spacey && y.head?.elim false spacey)
      = false) : noBadPair (x ++ y) = true := by
  induction x with
  | nil => simpa using hy
  | cons c x' ih =>
    cases x' with
    | nil =>
      rw [List.cons_append, List.nil_append]
      apply noBadPair_cons c y hy
      simpa using hedge
    | cons c2 x'' =>
      rw [List.cons_append]
      apply noBadPair_cons
      · apply ih (noBadPair_tail _ _ hx)
        rw [List.getLast?_cons_cons] at hedge
        exact hedge
      · simp only [noBadPair, Bool.and_eq_true] at hx
        have h1 := hx.1
        rw [Bool.not_eq_true'] at h1
        rw [List.cons_append, List.head?_cons]
        simp only [Option.elim]
        exact h1

theorem subDelGo_append_fail (m : List Char → Option Nat) (x : List Char)
    (hm : ∀ ch ∈ x, FailsOn m ch) :
    ∀ (r : List Char) (fuel : Nat),
      subDelGo m (x.length + fuel) (x ++ r) = x ++ subDelGo m fuel r := by
  induction x with
  | nil => intro r fuel; simp
  | cons c x' ih =>
    intro r fuel
    have hc : m (c :: (x' ++ r)) = none := hm c (by simp) _
    rw [List.cons_append]
    show subDelGo m (x'.length + 1 + fuel) (c :: (x' ++ r)) = _
    rw [show x'.length + 1 + fuel = (x'.length + fuel) + 1 by omega]
    simp only [subDelGo, hc]
    rw [ih (fun ch hch => hm ch (List.mem_cons_of_mem c hch)) r fuel,
      List.cons_append]

theorem subDelGo_all_fail (m : List Char → Option Nat) (x : List Char)
    (hm : ∀ ch ∈ x, FailsOn m ch) :
    ∀ fuel : Nat, subDelGo m fuel x = x := by
  induction x with
  | nil => intro fuel; cases fuel <;> rfl
  | cons c x' ih =>
    intro fuel
    cases fuel with
    | zero => rfl
    | succ f =>
      have hc : m (c :: x') = none := hm c (by simp) _
      simp only [subDelGo, hc]
      rw [ih (fun ch hch => hm ch (List.mem_cons_of_mem c hch)) f]

theorem subDel_of_all_fail (m : List Char → Option Nat) (x : List Char)
    (hm : ∀ ch ∈ x, FailsOn m ch) : subDel m x = x :=
  subDelGo_all_fail m x hm x.length

theorem boiler_fails_safe : ∀ m ∈ boilerplate, ∀ ch : Char,
    safeChar ch = true ∨ ch = '\n' → FailsOn m ch := by
  intro m hm ch hch
  have hch4 : ch = 'x' ∨ ch = 'y' ∨ ch = 'z' ∨ ch = '\n' := by
    rcases hch with hs | rfl
    · rcases safeChar_cases ch hs with rfl | rfl | rfl <;> tauto
    · tauto
  fin_cases hm <;> rcases hch4 with rfl | rfl | rfl | rfl <;>
    exact fun l => rfl

theorem tillNL_append_safe (b rest : List Char) (hb : b.all safeChar = true) :
    tillNL (b ++ '\n' :: rest) = some (b.length + 1) := by
  induction b with
  | nil => rfl
  | cons ch b' ih =>
    rw [List.all_cons, Bool.and_eq_true] at hb
    have hnl : (ch == '\n') = false := safeChar_not_nl ch hb.1
    rw [List.cons_append]
    show (if ch == '\n' then some 1
      else (tillNL (b' ++ '\n' :: rest)).map (· + 1)) = _
    rw [hnl, if_neg (by simp), ih hb.2]
    simp only [Option.map_some']
    rw [List.length_cons]

theorem drop_after_nl (b rest : List Char) :
    (b ++ '\n' :: rest).drop (b.length + 1) = rest := by
  have h1 : b ++ '\n' :: rest = (b ++ ['\n']) ++ rest := by simp
  have h2 : b.length + 1 = (b ++ ['\n']).length := by simp
  rw [h1, h2, List.drop_left]

theorem mCookie_at (b rest : List Char) (hb : b.all safeChar = true) :
    mCookie ("cookie policy".toList ++ (b ++ '\n' :: rest))
      = some (14 + b.length) := by
  have h5 : eatTillNL (b ++ '\n' :: rest) = some rest := by
    show (tillNL (b ++ '\n' :: rest)).bind
      (fun n => some ((b ++ '\n' :: rest).drop n)) = some rest
    rw [tillNL_append_safe b rest hb]
    simp only [Option.some_bind]
    rw [drop_after_nl]
  have key : mCookie ("cookie policy".toList ++ (b ++ '\n' :: rest))
      = (eatTillNL (b ++ '\n' :: rest)).bind (fun r4 =>
          some (("cookie policy".toList ++ (b ++ '\n' :: rest)).length
            - r4.length)) := rfl
  rw [key, h5]
  simp only [Option.some_bind, Option.some.injEq]
  simp only [List.length_append, List.length_cons]
  have : "cookie policy".toList.length = 13 := by decide
  omega

theorem subDelGo_match (m : List Char → Option Nat) (fuel : Nat) (c0 : Char)
    (l : List Char) (n : Nat) (hm : m (c0 :: l) = some n) :
    subDelGo m (fuel + 1) (c0 :: l) = subDelGo m fuel ((c0 :: l).drop n) := by
  simp only [subDelGo, hm]

theorem foldl_subDel_id (ms : List (List Char → Option Nat)) (l : List Char)
    (h : ∀ m ∈ ms, subDel m l = l) :
    ms.foldl (fun t m => subDel m t) l = l := by
  induction ms with
  | nil => rfl
  | cons m ms' ih =>
    rw [List.foldl_cons, h m (by simp)]
    exact ih (fun m2 hm2 => h m2 (List.mem_cons_of_mem m hm2))

theorem containsSub_false_of_no_head (p0 : Char) (ps l : List Char)
    (h : ∀ ch ∈ l, (ch == p0) = false) :
    containsSub (p0 :: ps) l = false := by
  induction l with
  | nil => rfl
  | cons c t ih =>
    show ((c :: t).take (p0 :: ps).length == p0 :: ps
      || containsSub (p0 :: ps) t) = false
    rw [ih (fun ch hch => h ch (List.mem_cons_of_mem c hch)), Bool.or_false]
    rw [List.length_cons, List.take_succ_cons]
    apply beq_eq_false_iff_ne.mpr
    intro heq
    rw [List.cons.injEq] at heq
    have := h c (by simp)
    rw [heq.1] at this
    simp at this

theorem all_safe_head_not_spacey (l : List Char) (h : l.all safeChar = true) :
    l.head?.elim false spacey = false := by
  rw [List.all_eq_true] at h
  cases hl : l.head? with
  | none => rfl
  | some ch =>
    have := safeChar_not_spacey ch (h ch (mem_of_head_eq l ch hl))
    simpa using this

theorem subDelGo_match_ne (m : List Char → Option Nat) (fuel : Nat)
    (l : List Char) (n : Nat) (hm : m l = some n) (hl : l ≠ []) :
    subDelGo m (fuel + 1) l = subDelGo m fuel (l.drop n) := by
  cases l with
  | nil => exact absurd rfl hl
  | cons c0 r => simp only [subDelGo, hm]

theorem subDelGo_step_none (m : List Char → Option Nat) (fuel : Nat)
    (c0 : Char) (rest : List Char) (hm : m (c0 :: rest) = none) :
    subDelGo m (fuel + 1) (c0 :: rest) = c0 :: subDelGo m fuel rest := by
  simp only [subDelGo, hm]

theorem subDel_mCookie_family (a b c : List Char)
    (ha : a.all safeChar = true) (hb : b.all safeChar = true)
    (hc : c.all safeChar = true) :
    subDel mCookie (a ++ '\n' :: ("cookie policy".toList ++ (b ++ '\n' :: c)))
      = a ++ '\n' :: c := by
  have hmem : mCookie ∈ boilerplate := by simp [boilerplate]
  have hmem_a : ∀ ch ∈ a, FailsOn mCookie ch := fun ch hch =>
    boiler_fails_safe mCookie hmem ch
      (Or.inl (List.all_eq_true.mp ha ch hch))
  unfold subDel
  rw [show (a ++ '\n' :: ("cookie policy".toList ++ (b ++ '\n' :: c))).length
      = a.length
      + ('\n' :: ("cookie policy".toList ++ (b ++ '\n' :: c))).length from by
    simp [List.length_append]]
  rw [subDelGo_append_fail mCookie a hmem_a]
  congr 1
  have hnl : mCookie ('\n' :: ("cookie policy".toList ++ (b ++ '\n' :: c)))
      = none :=
    boiler_fails_safe mCookie hmem '\n' (Or.inr rfl) _
  show subDelGo mCookie
    (("cookie policy".toList ++ (b ++ '\n' :: c)).length + 1)
    ('\n' :: ("cookie policy".toList ++ (b ++ '\n' :: c))) = '\n' :: c
  rw [subDelGo_step_none mCookie _ _ _ hnl]
  congr 1
  have hmatch := mCookie_at b c hb
  have hpos : 1 ≤ ("cookie policy".toList ++ (b ++ '\n' :: c)).length := by
    simp [List.length_append]
  rw [show ("cookie policy".toList ++ (b ++ '\n' :: c)).length
      = (("cookie policy".toList ++ (b ++ '\n' :: c)).length - 1) + 1 from by
    omega]
  rw [subDelGo_match_ne mCookie _ _ _ hmatch (by simp)]
  have hdrop : ("cookie policy".toList ++ (b ++ '\n' :: c)).drop
      (14 + b.length) = c := by
    have h1 : "cookie policy".toList ++ (b ++ '\n' :: c)
        = ("cookie policy".toList ++ (b ++ ['\n'])) ++ c := by simp
    have h2 : 14 + b.length
        = ("cookie policy".toList ++ (b ++ ['\n'])).length := by
      simp [List.length_append]
      omega
    rw [h1, h2, List.drop_left]
  rw [hdrop]
  exact subDelGo_all_fail mCookie c (fun ch hch =>
    boiler_fails_safe mCookie hmem ch
      (Or.inl (List.all_eq_true.mp hc ch hch))) _

theorem boilerAll_family (a b c : List Char)
    (ha : a.all safeChar = true) (hb : b.all safeChar = true)
    (hc : c.all safeChar = true) :
    boilerAll (a ++ '\n' :: ("cookie policy".toList ++ (b ++ '\n' :: c)))
      = a ++ '\n' :: c := by
  have hrest : ∀ m ∈ ([mAccept, mPrivacy, mTerms, mCopyright, mFollow,
      mShare, mSubscribe, mSignup, mNav] : List (List Char → Option Nat)),
      subDel m (a ++ '\n' :: c) = a ++ '\n' :: c := by
    intro m hm
    apply subDel_of_all_fail
    intro ch hch
    apply boiler_fails_safe m (show m ∈ boilerplate from
      List.mem_cons_of_mem mCookie hm)
    rcases List.mem_append.mp hch with h | h
    · exact Or.inl (List.all_eq_true.mp ha ch h)
    · rcases List.mem_cons.mp h with rfl | h2
      · exact Or.inr rfl
      · exact Or.inl (List.all_eq_true.mp hc ch h2)
  show List.foldl (fun t m => subDel m t)
    (a ++ '\n' :: ("cookie policy".toList ++ (b ++ '\n' :: c)))
    boilerplate = a ++ '\n' :: c
  rw [show boilerplate = mCookie :: [mAccept, mPrivacy, mTerms, mCopyright,
    mFollow, mShare, mSubscribe, mSignup, mNav] from rfl]
  rw [List.foldl_cons, subDel_mCookie_family a b c ha hb hc]
  exact foldl_subDel_id _ _ hrest

theorem cleanTextL_of_isNormal (t : List Char) (h1 : isNormal t = true)
    (hne : t ≠ []) : cleanTextL t = pystrip (boilerAll t) := by
  unfold cleanTextL
  rw [normJoin_bounded t.length t le_rfl h1]
  unfold cleanHtmlTextL
  rw [if_neg (by cases t with
    | nil => exact absurd rfl hne
    | cons c r => simp)]
  rw [subNL3_eq_self t h1, subSpTab_eq_self t h1, subSpNL_eq_self t h1]

theorem isNormal_family (a b c : List Char)
    (ha : a.all safeChar = true) (hb : b.all safeChar = true)
    (hc : c.all safeChar = true) (hane : a ≠ []) (hcne : c ≠ []) :
    isNormal (a ++ '\n' :: ("cookie policy".toList ++ (b ++ '\n' :: c)))
      = true := by
  have hok : ∀ l : List Char, l.all safeChar = true →
      l.all okChar = true := fun l hl => List.all_eq_true.mpr
    (fun x hx => safeChar_ok x (List.all_eq_true.mp hl x hx))
  have hnsp : ∀ l : List Char, l.all safeChar = true →
      ∀ ch ∈ l, spacey ch = false := fun l hl ch hch =>
    safeChar_not_spacey ch (List.all_eq_true.mp hl ch hch)
  have np_c : noBadPair c = true :=
    noBadPair_of_all_nonspacey c (hnsp c hc)
  have np1 : noBadPair ('\n' :: c) = true := by
    apply noBadPair_cons _ _ np_c
    rw [all_safe_head_not_spacey c hc, Bool.and_false]
  have np2 : noBadPair (b ++ '\n' :: c) = true := by
    apply noBadPair_append _ _ (noBadPair_of_all_nonspacey b (hnsp b hb)) np1
    rw [all_safe_last_not_spacey b hb, Bool.false_and]
  have np3 : noBadPair ("cookie policy".toList ++ (b ++ '\n' :: c))
      = true := by
    apply noBadPair_append _ _ (by decide) np2
    rw [show ("cookie policy".toList.getLast?.elim false spacey) = false from
      by decide, Bool.false_and]
  have np4 : noBadPair ('\n' :: ("cookie policy".toList ++ (b ++ '\n' :: c)))
      = true := by
    apply noBadPair_cons _ _ np3
    rw [head_append_of_ne_nil _ _ (by decide)]
    rw [show ("cookie policy".toList.head?.elim false spacey) = false from
      by decide, Bool.and_false]
  have np5 : noBadPair (a ++ '\n' :: ("cookie policy".toList
      ++ (b ++ '\n' :: c))) = true := by
    apply noBadPair_append _ _ (noBadPair_of_all_nonspacey a (hnsp a ha)) np4
    rw [all_safe_last_not_spacey a ha, Bool.false_and]
  have hallok : (a ++ '\n' :: ("cookie policy".toList
      ++ (b ++ '\n' :: c))).all okChar = true := by
    simp only [List.all_append, List.all_cons, Bool.and_eq_true]
    refine ⟨hok a ha, by decide, by decide, hok b hb, by decide, hok c hc⟩
  have hhead : (a ++ '\n' :: ("cookie policy".toList
      ++ (b ++ '\n' :: c))).head?.elim false spacey = false := by
    rw [head_append_of_ne_nil a _ hane]
    exact all_safe_head_not_spacey a ha
  have hlast : (a ++ '\n' :: ("cookie policy".toList
      ++ (b ++ '\n' :: c))).getLast?.elim false spacey = false := by
    rw [show a ++ '\n' :: ("cookie policy".toList ++ (b ++ '\n' :: c))
        = (a ++ '\n' :: ("cookie policy".toList ++ (b ++ ['\n']))) ++ c from
      by simp]
    rw [List.getLast?_append_of_ne_nil _ hcne]
    exact all_safe_last_not_spacey c hc
  simp only [isNormal, Bool.and_eq_true, Bool.not_eq_true']
  exact ⟨⟨⟨hallok, np5⟩, hhead⟩, hlast⟩

/-! # Claims -/

/-- **C7** (confirmed): `_handle_route` evaluates first-match-wins: under
the default configuration a request of resource type `"image"` is always
denied regardless of URL; a request whose URL contains
`"google-analytics.com"` is denied regardless of resource type; and a
request whose type is not blocked and whose URL contains no blocked
domain substring proceeds unmodified. -/
theorem C7_resource_policy_first_match :
    (∀ url : String,
      handle_route DEFAULT_CONFIG "image" url = .abort) ∧
    (∀ rt url : String, pyIn "google-analytics.com" url = true →
      handle_route DEFAULT_CONFIG rt url = .abort) ∧
    (∀ rt url : String,
      DEFAULT_CONFIG.blocked_resource_types.contains rt = false →
      DEFAULT_CONFIG.blocked_domains.all (fun b => !(pyIn b url)) = true →
      handle_route DEFAULT_CONFIG rt url = .continue_) := by
  refine ⟨fun url => rfl, ?_, ?_⟩
  · intro rt url h
    unfold handle_route
    by_cases hc : DEFAULT_CONFIG.blocked_resource_types.contains rt = true
    · rw [if_pos hc]
    · have hany : DEFAULT_CONFIG.blocked_domains.any
          (fun blocked => pyIn blocked url) = true := by
        show ((["google-analytics.com", "googletagmanager.com",
          "facebook.com", "doubleclick.net", "ads.", "tracking.",
          "analytics."] : List String).any (fun blocked => pyIn blocked url))
          = true
        simp only [List.any_cons, h, Bool.true_or]
      rw [if_neg hc, if_pos hany]
  · intro rt url h1 h2
    have hany : ¬ (DEFAULT_CONFIG.blocked_domains.any
        (fun blocked => pyIn blocked url) = true) := by
      intro hcontra
      rw [List.any_eq_true] at hcontra
      obtain ⟨b, hb, hpb⟩ := hcontra
      rw [List.all_eq_true] at h2
      have hb2 := h2 b hb
      rw [hpb] at hb2
      exact Bool.noConfusion hb2
    have hc : ¬ (DEFAULT_CONFIG.blocked_resource_types.contains rt = true) := by
      rw [h1]
      exact Bool.noConfusion
    unfold handle_route
    rw [if_neg hc, if_neg hany]

/-- **C7 witness**: the three cases at concrete requests. -/
theorem C7_witness :
    handle_route DEFAULT_CONFIG "image" "https://example.org/pic.png"
      = .abort ∧
    handle_route DEFAULT_CONFIG "script"
      "https://www.google-analytics.com/ga.js" = .abort ∧
    handle_route DEFAULT_CONFIG "document" "https://example.org/job"
      = .continue_ :=
  ⟨C7_resource_policy_first_match.1 _,
   C7_resource_policy_first_match.2.1 "script"
     "https://www.google-analytics.com/ga.js" (by decide),
   C7_resource_policy_first_match.2.2 "document" "https://example.org/job"
     (by decide) (by decide)⟩

/-- **C4** (confirmed): `search_jobs_async` isolates per-source failures:
when the indeed searcher raises and the wttj searcher returns `rs`, the
combined search returns exactly `rs` (without raising — the model is a
total function); an unknown source name is skipped with no effect on the
rest; and the two authentication-required sources return `[]` without
raising. -/
theorem C4_partial_failure_isolation :
    (∀ (w : SearchWorld) (e : String) (rs : List JobSearchResult),
      w.indeed = .error e → w.wttj = .ok rs →
      search_jobs_async w (some ["indeed", "wttj"]) = rs) ∧
    (∀ (w : SearchWorld) (s : String) (srcs : List String),
      SOURCES_ASYNC.find? (fun p => p.1 == s) = none →
      search_jobs_async w (some (s :: srcs))
        = search_jobs_async w (some srcs)) ∧
    (∀ w : SearchWorld,
      search_linkedin_async w = .ok [] ∧ search_glassdoor_async w = .ok []) := by
  refine ⟨?_, ?_, fun w => ⟨rfl, rfl⟩⟩
  · intro w e rs hi hw
    have hrw : search_jobs_async w (some ["indeed", "wttj"])
        = [w.indeed, w.wttj].foldl (fun acc r =>
            match r with
            | .ok results => acc ++ results
            | .error _ => acc) [] := rfl
    rw [hrw, hi, hw]
    simp
  · intro w s srcs h
    unfold search_jobs_async
    simp [h]

/-- **C4 witness**: a raising indeed search plus a wttj search returning
two results yields exactly those two results; `"bogus"` is skipped; the
authentication-required sources are no-ops. -/
theorem C4_witness :
    search_jobs_async
      ⟨.error "net down",
       .ok [{ url := "https://wttj.example/j1", source := "wttj" },
            { url := "https://wttj.example/j2", source := "wttj" }]⟩
      (some ["indeed", "wttj"])
      = [{ url := "https://wttj.example/j1", source := "wttj" },
         { url := "https://wttj.example/j2", source := "wttj" }] ∧
    search_jobs_async ⟨.error "net down", .ok []⟩ (some ["bogus"])
      = search_jobs_async ⟨.error "net down", .ok []⟩ (some []) ∧
    search_linkedin_async ⟨.error "net down", .ok []⟩ = .ok [] :=
  ⟨C4_partial_failure_isolation.1 _ "net down" _ rfl rfl,
   C4_partial_failure_isolation.2.1 _ "bogus" [] rfl,
   (C4_partial_failure_isolation.2.2 _).1⟩

/-- **C2 counterexample**: the claim fails on the code.  With
`max_results = 1` and cards `[linkless, valid]`, the list contains one
card (`≥ max_results`) with a resolvable link, yet `_extract_job_card`
returns zero results, because the slice `cards[:max_results]` is taken
before linkless cards are skipped, so the linkless card consumes the only
slot. -/
theorem C2_counterexample :
    (([⟨none, none, none, none⟩,
       ⟨some (some "https://fr.indeed.com/job/1"), none, none, none⟩]
        : List JobCard).countP hasResolvableLink = 1) ∧
    extract_job_card (fun _ u => u)
      [⟨none, none, none, none⟩,
       ⟨some (some "https://fr.indeed.com/job/1"), none, none, none⟩]
      "indeed" 1 "https://fr.indeed.com" = [] :=
  ⟨rfl, rfl⟩

/-- **C2 amended**: `_extract_job_card` examines only the first
`max_results` cards; linkless cards inside that window are skipped but
still consume slots.  The number of results equals the number of cards
with resolvable links among the first `max_results` cards, and in
particular never exceeds `max_results`. -/
theorem C2_amended (urljoin : String → String → String)
    (cards : List JobCard) (source : String) (max_results : Nat)
    (base_url : String) :
    (extract_job_card urljoin cards source max_results base_url).length
      = ((cards.take max_results).filter hasResolvableLink).length ∧
    (extract_job_card urljoin cards source max_results base_url).length
      ≤ max_results := by
  constructor
  · unfold extract_job_card
    rw [length_filterMap_eq_length_filter _ hasResolvableLink]
    intro a
    cases h : a.link_href with
    | none => simp [h, hasResolvableLink]
    | some o =>
      cases o with
      | none => simp [h, hasResolvableLink]
      | some u => simp [h, hasResolvableLink]
  · calc (extract_job_card urljoin cards source max_results base_url).length
        ≤ (cards.take max_results).length := List.length_filterMap_le _ _
    _ ≤ max_results := List.length_take_le _ _

/-- **C6** (confirmed): with `max_size = 3` and three keys with distinct
normalizations inserted into an empty cache, all three are retrievable; a
fourth `set` with a distinct normalization evicts exactly the
first-inserted key (the others and the fourth stay retrievable); and a
`set` never pushes the entry count above `max_size` when `max_size ≥ 1`
(`get` is a pure function of the cache, so access cannot refresh
recency). -/
theorem C6_cache_fifo_eviction :
    (∀ u1 u2 u3 u4 v1 v2 v3 v4 : String,
      normalize_url u1 ≠ normalize_url u2 →
      normalize_url u1 ≠ normalize_url u3 →
      normalize_url u1 ≠ normalize_url u4 →
      normalize_url u2 ≠ normalize_url u3 →
      normalize_url u2 ≠ normalize_url u4 →
      normalize_url u3 ≠ normalize_url u4 →
      ((((⟨[], 3⟩ : URLCache).set u1 v1).set u2 v2).set u3 v3).get u1
          = some v1 ∧
      ((((⟨[], 3⟩ : URLCache).set u1 v1).set u2 v2).set u3 v3).get u2
          = some v2 ∧
      ((((⟨[], 3⟩ : URLCache).set u1 v1).set u2 v2).set u3 v3).get u3
          = some v3 ∧
      (((((⟨[], 3⟩ : URLCache).set u1 v1).set u2 v2).set u3 v3).set u4 v4).get
          u1 = none ∧
      (((((⟨[], 3⟩ : URLCache).set u1 v1).set u2 v2).set u3 v3).set u4 v4).get
          u2 = some v2 ∧
      (((((⟨[], 3⟩ : URLCache).set u1 v1).set u2 v2).set u3 v3).set u4 v4).get
          u3 = some v3 ∧
      (((((⟨[], 3⟩ : URLCache).set u1 v1).set u2 v2).set u3 v3).set u4 v4).get
          u4 = some v4) ∧
    (∀ (c : URLCache) (u v : String), 1 ≤ c.max_size →
      c.entries.length ≤ c.max_size →
      (c.set u v).entries.length ≤ c.max_size) := by
  constructor
  · intro u1 u2 u3 u4 v1 v2 v3 v4 h12 h13 h14 h23 h24 h34
    have b12 : (normalize_url u1 == normalize_url u2) = false :=
      beq_eq_false_iff_ne.mpr h12
    have b13 : (normalize_url u1 == normalize_url u3) = false :=
      beq_eq_false_iff_ne.mpr h13
    have b23 : (normalize_url u2 == normalize_url u3) = false :=
      beq_eq_false_iff_ne.mpr h23
    have b24 : (normalize_url u2 == normalize_url u4) = false :=
      beq_eq_false_iff_ne.mpr h24
    have b34 : (normalize_url u3 == normalize_url u4) = false :=
      beq_eq_false_iff_ne.mpr h34
    have b21 : (normalize_url u2 == normalize_url u1) = false :=
      beq_eq_false_iff_ne.mpr (Ne.symm h12)
    have b31 : (normalize_url u3 == normalize_url u1) = false :=
      beq_eq_false_iff_ne.mpr (Ne.symm h13)
    have b41 : (normalize_url u4 == normalize_url u1) = false :=
      beq_eq_false_iff_ne.mpr (Ne.symm h14)
    have e1 : ((⟨[], 3⟩ : URLCache).set u1 v1)
        = ⟨[(normalize_url u1, v1)], 3⟩ := rfl
    have e2 : ((⟨[(normalize_url u1, v1)], 3⟩ : URLCache).set u2 v2)
        = ⟨[(normalize_url u1, v1), (normalize_url u2, v2)], 3⟩ := by
      show (⟨dictSet [(normalize_url u1, v1)] (normalize_url u2) v2, 3⟩
        : URLCache) = _
      rw [dictSet_append_of_all_ne _ _ _ (by simp [b12])]
      rfl
    have e3 : ((⟨[(normalize_url u1, v1), (normalize_url u2, v2)], 3⟩
          : URLCache).set u3 v3)
        = ⟨[(normalize_url u1, v1), (normalize_url u2, v2),
            (normalize_url u3, v3)], 3⟩ := by
      show (⟨dictSet [(normalize_url u1, v1), (normalize_url u2, v2)]
        (normalize_url u3) v3, 3⟩ : URLCache) = _
      rw [dictSet_append_of_all_ne _ _ _ (by simp [b13, b23])]
      rfl
    have e4 : ((⟨[(normalize_url u1, v1), (normalize_url u2, v2),
          (normalize_url u3, v3)], 3⟩ : URLCache).set u4 v4)
        = ⟨[(normalize_url u2, v2), (normalize_url u3, v3),
            (normalize_url u4, v4)], 3⟩ := by
      show (⟨dictSet [(normalize_url u2, v2), (normalize_url u3, v3)]
        (normalize_url u4) v4, 3⟩ : URLCache) = _
      rw [dictSet_append_of_all_ne _ _ _ (by simp [b24, b34])]
      rfl
    refine ⟨?_, ?_, ?_, ?_, ?_, ?_, ?_⟩ <;>
      rw [e1, e2, e3] <;> try rw [e4]
    all_goals
      simp [URLCache.get, List.find?, b12, b13, b23, b24, b34, b21, b31, b41]
  · intro c u v h1 h2
    unfold URLCache.set
    by_cases hful : c.max_size ≤ c.entries.length
    · rw [if_pos hful]
      show (dictSet c.entries.tail (normalize_url u) v).length ≤ c.max_size
      rw [dictSet_length]
      have htail : c.entries.tail.length = c.entries.length - 1 :=
        List.length_tail _
      by_cases ha : (c.entries.tail.any fun p => p.1 == normalize_url u) = true
      · rw [if_pos ha, htail]; omega
      · rw [if_neg ha, htail]; omega
    · rw [if_neg hful]
      show (dictSet c.entries (normalize_url u) v).length ≤ c.max_size
      rw [dictSet_length]
      by_cases ha : (c.entries.any fun p => p.1 == normalize_url u) = true
      · rw [if_pos ha]; omega
      · rw [if_neg ha]; omega

/-- **C6 witness**: four concrete URLs with distinct normalizations in a
`max_size = 3` cache — the fourth `set` evicts the first key and the
fourth is retrievable. -/
theorem C6_witness :
    (((((⟨[], 3⟩ : URLCache).set "https://e.com/1" "a").set
        "https://e.com/2" "b").set "https://e.com/3" "c").set
        "https://e.com/4" "d").get "https://e.com/1" = none ∧
    (((((⟨[], 3⟩ : URLCache).set "https://e.com/1" "a").set
        "https://e.com/2" "b").set "https://e.com/3" "c").set
        "https://e.com/4" "d").get "https://e.com/4" = some "d" := by
  have h := C6_cache_fifo_eviction.1 "https://e.com/1" "https://e.com/2"
    "https://e.com/3" "https://e.com/4" "a" "b" "c" "d" (by decide)
    (by decide) (by decide) (by decide) (by decide) (by decide)
  exact ⟨h.2.2.2.1, h.2.2.2.2.2.2⟩

/-- **C10** (confirmed): `URLCache.set` on a cache at (or above) capacity
evicts the oldest entry before the assignment even when the normalized
key is already present.  (a) Overwriting a present non-oldest key evicts
the unrelated oldest entry: the count strictly decreases by one, the old
first key disappears (given the dict invariant that keys are unique), and
the written key maps to the new value.  (b) Overwriting the oldest key
itself deletes it and re-inserts it at the newest position. -/
theorem C10_set_at_capacity_overwrite :
    (∀ (k0 v0 : String) (rest : List (String × String)) (ms : Nat)
        (u v : String),
      ms ≤ rest.length + 1 →
      (normalize_url u == k0) = false →
      rest.any (fun p => p.1 == normalize_url u) = true →
      rest.all (fun p => !(p.1 == k0)) = true →
      (({ entries := (k0, v0) :: rest, max_size := ms } : URLCache).set u
          v).entries.length + 1 = ((k0, v0) :: rest).length ∧
      (({ entries := (k0, v0) :: rest, max_size := ms } : URLCache).set u
          v).entries.all (fun p => !(p.1 == k0)) = true ∧
      (({ entries := (k0, v0) :: rest, max_size := ms } : URLCache).set u
          v).get u = some v) ∧
    (∀ (k0 v0 : String) (rest : List (String × String)) (ms : Nat)
        (u v : String),
      ms ≤ rest.length + 1 →
      normalize_url u = k0 →
      rest.all (fun p => !(p.1 == k0)) = true →
      (({ entries := (k0, v0) :: rest, max_size := ms } : URLCache).set u
          v).entries = rest ++ [(k0, v)]) := by
  constructor
  · intro k0 v0 rest ms u v hful hne hmem hk0
    have hsetfull : (({ entries := (k0, v0) :: rest, max_size := ms }
        : URLCache).set u v).entries = dictSet rest (normalize_url u) v := by
      unfold URLCache.set
      rw [if_pos (by simpa using hful)]
      rfl
    refine ⟨?_, ?_, ?_⟩
    · rw [hsetfull, dictSet_length, if_pos hmem]
      simp
    · rw [hsetfull]
      exact dictSet_all rest _ v _ hk0 (by simpa using hne)
    · unfold URLCache.get
      rw [hsetfull, dictSet_find]
      rfl
  · intro k0 v0 rest ms u v hful hkey hk0
    have hsetfull : (({ entries := (k0, v0) :: rest, max_size := ms }
        : URLCache).set u v).entries = dictSet rest (normalize_url u) v := by
      unfold URLCache.set
      rw [if_pos (by simpa using hful)]
      rfl
    rw [hsetfull, hkey, dictSet_append_of_all_ne rest k0 v hk0]

/-- **C10 witness**: a two-entry cache at capacity 2; overwriting the
present non-oldest key `https://b.com/y` evicts `https://a.com/x` and
shrinks the cache; overwriting the oldest key re-inserts it last. -/
theorem C10_witness :
    (((⟨[("https://a.com/x", "va"), ("https://b.com/y", "old")], 2⟩
        : URLCache).set "https://b.com/y" "new").entries.length
      + 1 = 2 ∧
    ((⟨[("https://a.com/x", "va"), ("https://b.com/y", "old")], 2⟩
        : URLCache).set "https://b.com/y" "new").get
      "https://b.com/y" = some "new") ∧
    ((⟨[("https://a.com/x", "va"), ("https://b.com/y", "old")], 2⟩
        : URLCache).set "https://a.com/x" "new2").entries
      = [("https://b.com/y", "old"), ("https://a.com/x", "new2")] := by
  have ha := C10_set_at_capacity_overwrite.1 "https://a.com/x" "va"
    [("https://b.com/y", "old")] 2 "https://b.com/y" "new" (by decide)
    (by decide) (by decide) (by decide)
  have hb := C10_set_at_capacity_overwrite.2 "https://a.com/x" "va"
    [("https://b.com/y", "old")] 2 "https://a.com/x" "new2" (by decide)
    (by decide) (by decide)
  exact ⟨⟨ha.1, ha.2.2⟩, hb⟩

/-- **C1 counterexample**: the claim fails on the code.  The two URLs
share scheme, host and path but differ in query string, yet they hit the
same cache entry: `_normalize_url` builds its key from scheme, netloc and
trailing-slash-stripped path only, silently discarding the query string
(along with the fragment), so a `set` under `?a=1` is returned by a `get`
under `?b=2`. -/
theorem C1_counterexample :
    ((urlparse "https://x.com/p?a=1".toList).scheme
        = (urlparse "https://x.com/p?b=2".toList).scheme ∧
     (urlparse "https://x.com/p?a=1".toList).netloc
        = (urlparse "https://x.com/p?b=2".toList).netloc ∧
     (urlparse "https://x.com/p?a=1".toList).path
        = (urlparse "https://x.com/p?b=2".toList).path ∧
     (urlparse "https://x.com/p?a=1".toList).query
        ≠ (urlparse "https://x.com/p?b=2".toList).query) ∧
    ((⟨[], 100⟩ : URLCache).set "https://x.com/p?a=1" "cached text").get
      "https://x.com/p?b=2" = some "cached text" :=
  ⟨⟨rfl, rfl, rfl, by decide⟩, rfl⟩

/-- **C1 amended**: normalization keeps only scheme, host and
trailing-slash-stripped path, discarding query string and fragment: every
two URLs agreeing on those three components (in particular `…/page` and
`…/page/`, and any two URLs differing only in query or fragment) share
one cache entry — a `set` on one is returned by a `get` on the other. -/
theorem C1_amended (c : URLCache) (u1 u2 v : String)
    (hs : (urlparse u1.toList).scheme = (urlparse u2.toList).scheme)
    (hn : (urlparse u1.toList).netloc = (urlparse u2.toList).netloc)
    (hp : ((urlparse u1.toList).path.reverse.dropWhile (· == '/')).reverse
        = ((urlparse u2.toList).path.reverse.dropWhile (· == '/')).reverse) :
    normalize_url u1 = normalize_url u2 ∧ (c.set u1 v).get u2 = some v := by
  have hnorm : normalize_url u1 = normalize_url u2 := by
    simp only [normalize_url]
    rw [hs, hn, hp]
  exact ⟨hnorm, URLCache.get_set_of_norm_eq c u1 u2 v hnorm⟩

/-- **C1 witness**: `…/page` with a query and fragment and `…/page/`
bare collide, and the cached value is returned across them. -/
theorem C1_witness :
    normalize_url "https://x.com/page/?q=1#frag"
      = normalize_url "https://x.com/page" ∧
    ((⟨[], 100⟩ : URLCache).set "https://x.com/page/?q=1#frag" "body").get
      "https://x.com/page" = some "body" :=
  C1_amended ⟨[], 100⟩ "https://x.com/page/?q=1#frag" "https://x.com/page"
    "body" rfl rfl (by decide)

/-- **C5 counterexample**: the claim fails on the code — the cleaning
pipeline is not idempotent.  On `"x\nmenu\ny"` the boilerplate pass
deletes the bare word `menu` (the last pattern's `.*?\n` binds only to
`sidebar`, so `menu` matches alone), leaving an empty line `"x\n\ny"`;
a second cleaning removes that empty line, producing `"x\ny"`. -/
theorem C5_counterexample :
    clean_text (clean_text "x\nmenu\ny") ≠ clean_text "x\nmenu\ny" := by
  decide

/-- **C5 amended**: the cleaning pipeline is idempotent on every input
whose cleaned output is whitespace-normal (no run of spaces, no space
next to a newline, no empty line, no leading/trailing whitespace, no
exotic whitespace) and boilerplate-free.  In general it is not
idempotent: a boilerplate removal can leave an empty line behind, or
splice the surrounding text into a new boilerplate match, and the second
application then cleans further. -/
theorem C5_amended (s : String)
    (h1 : isNormal (cleanTextL s.toList) = true)
    (h2 : boilerAll (cleanTextL s.toList) = cleanTextL s.toList) :
    clean_text (clean_text s) = clean_text s := by
  show (cleanTextL ((cleanTextL s.toList).asString).toList).asString
    = (cleanTextL s.toList).asString
  exact congrArg List.asString (cleanTextL_fixpoint _ h1 h2)

/-- **C5 witness**: a concrete cleaned text that is whitespace-normal
and boilerplate-free, on which cleaning twice equals cleaning once. -/
theorem C5_witness :
    isNormal (cleanTextL "hello  world\nsecond line".toList) = true ∧
    boilerAll (cleanTextL "hello  world\nsecond line".toList)
      = cleanTextL "hello  world\nsecond line".toList ∧
    clean_text (clean_text "hello  world\nsecond line")
      = clean_text "hello  world\nsecond line" :=
  ⟨by decide, by decide, C5_amended _ (by decide) (by decide)⟩

/-- **C3 counterexample**: the claim fails on the code for selector-wait
exceptions.  When `page.wait_for_selector` raises, the inner
`try/except` catches it and extraction continues: with a successful
navigation (status 200) and extraction yielding `"JOB TEXT"`, the fetch
returns the text (not `None`) and writes the cache entry — contrary to
the claim that any exception during the selector wait yields absence
with no cache write. -/
theorem C3_counterexample :
    get_page_content
      ⟨.ok (), .ok (some 200), .error "Timeout waiting for selector",
       .ok "JOB TEXT"⟩
      (⟨[], 100⟩ : URLCache) "https://j.com/x" (some ".sel") true
      = (some "JOB TEXT", ⟨[("https://j.com/x", "JOB TEXT")], 100⟩) := rfl

/-- **C3 amended**: on a cache miss, `get_page_content` returns absence
with the cache unchanged whenever the navigation response is absent or
has status ≥ 400, or an exception occurs during page acquisition,
navigation, or extraction (the model is a total function, so it cannot
raise).  A selector-wait exception is non-fatal: it is caught and
extraction continues.  Moreover every absent result leaves the cache
unchanged — negative results are never cached. -/
theorem C3_amended :
    (∀ (w : FetchWorld) (cache : URLCache) (url : String)
        (ws : Option String) (uc : Bool),
      (uc && cache.has url) = false →
      ((∃ e, w.acquire = .error e) ∨ (∃ e, w.navigate = .error e) ∨
        w.navigate = .ok none ∨
        (∃ s, w.navigate = .ok (some s) ∧ 400 ≤ s) ∨
        (∃ e, w.extract = .error e)) →
      get_page_content w cache url ws uc = (none, cache)) ∧
    (∀ (w : FetchWorld) (cache : URLCache) (url : String)
        (ws : Option String) (uc : Bool),
      (get_page_content w cache url ws uc).1 = none →
      (get_page_content w cache url ws uc).2 = cache) := by
  constructor
  · intro w cache url ws uc hmiss hfail
    unfold get_page_content
    rw [if_neg (by simp [hmiss])]
    rcases hfail with ⟨e, he⟩ | ⟨e, he⟩ | he | ⟨s, he, hs⟩ | ⟨e, he⟩
    · rw [he]
    · cases ha : w.acquire with
      | error e2 => rfl
      | ok u => rw [he]
    · cases ha : w.acquire with
      | error e2 => rfl
      | ok u => rw [he]
    · cases ha : w.acquire with
      | error e2 => rfl
      | ok u =>
        rw [he]
        simp [hs]
    · cases ha : w.acquire with
      | error e2 => rfl
      | ok u =>
        cases hn : w.navigate with
        | error e2 => rfl
        | ok r =>
          cases r with
          | none => rfl
          | some s =>
            by_cases hs : 400 ≤ s
            · simp [hs]
            · simp only [hs, if_false]
              cases ws with
              | none => simp [extractStep, he]
              | some sel =>
                cases hw : w.waitSel with
                | error e2 => simp [extractStep, he]
                | ok u2 => simp [extractStep, he]
  · intro w cache url ws uc
    unfold get_page_content
    by_cases hc : (uc && cache.has url) = true
    · rw [if_pos hc]
      intro _
      rfl
    · rw [if_neg hc]
      cases ha : w.acquire with
      | error e => intro _; rfl
      | ok u =>
        cases hn : w.navigate with
        | error e => intro _; rfl
        | ok r =>
          cases r with
          | none => intro _; rfl
          | some s =>
            by_cases hs : 400 ≤ s
            · intro _
              simp [hs]
            · simp only [hs, if_false]
              have hext : ∀ _ : (extractStep w cache url uc).1 = none,
                  (extractStep w cache url uc).2 = cache := by
                unfold extractStep
                cases he : w.extract with
                | error e => intro _; rfl
                | ok content => intro hcon; exact absurd hcon (by simp)
              cases ws with
              | none => exact hext
              | some sel =>
                cases hw : w.waitSel with
                | error e => exact hext
                | ok u2 => exact hext

/-- **C3 witness**: a 404 navigation on an empty cache yields absence and
leaves the cache empty. -/
theorem C3_witness :
    get_page_content ⟨.ok (), .ok (some 404), .ok (), .ok "ignored"⟩
      (⟨[], 100⟩ : URLCache) "https://fr.indeed.com/viewjob" none true
      = (none, ⟨[], 100⟩) :=
  C3_amended.1 _ _ _ _ _ (by decide)
    (Or.inr (Or.inr (Or.inr (Or.inl ⟨404, rfl, by norm_num⟩))))

/-- **C9 counterexample**: the claim fails on the code.  With a
successful fetch whose raw extracted content is the non-absent string
`"   "`, `get_page_text` returns `some ""` — the empty string reaches
the caller, because the emptiness check (`if content:`) precedes
cleaning, and cleaning can erase everything. -/
theorem C9_counterexample :
    (get_page_text ⟨.ok (), .ok (some 200), .ok (), .ok "   "⟩
      (⟨[], 100⟩ : URLCache) "https://j.com/x" none).1 = some "" := rfl

/-- **C9 amended**: every fetch outcome exposed by `get_page_text`,
`get_job_page`, or a value of the `get_job_pages` map is either absence
or `clean_text raw` for some non-empty raw content; the cleaned string
itself may still be empty when cleaning strips all of the raw content
(whitespace/boilerplate-only pages), so non-emptiness of the exposed
string is not guaranteed. -/
theorem C9_amended :
    (∀ (w : FetchWorld) (cache : URLCache) (url : String)
        (ws : Option String),
      (get_page_text w cache url ws).1 = none ∨
      ∃ raw : String, raw ≠ "" ∧
        (get_page_text w cache url ws).1 = some (clean_text raw)) ∧
    (∀ (w : FetchWorld) (cache : URLCache) (url : String),
      (get_job_page w cache url).1 = none ∨
      ∃ raw : String, raw ≠ "" ∧
        (get_job_page w cache url).1 = some (clean_text raw)) ∧
    (∀ (worlds : String → FetchWorld) (cache : URLCache)
        (urls : List String) (url : String) (v : Option String),
      (url, v) ∈ (get_job_pages worlds cache urls).1 →
      v = none ∨ ∃ raw : String, raw ≠ "" ∧ v = some (clean_text raw)) := by
  have h1 : ∀ (w : FetchWorld) (cache : URLCache) (url : String)
      (ws : Option String),
      (get_page_text w cache url ws).1 = none ∨
      ∃ raw : String, raw ≠ "" ∧
        (get_page_text w cache url ws).1 = some (clean_text raw) := by
    intro w cache url ws
    unfold get_page_text
    cases hr : (get_page_content w cache url ws true).1 with
    | none => left; simp [hr]
    | some content =>
      by_cases hc : (content == "") = true
      · left; simp [hr, hc]
      · right
        refine ⟨content, by simpa using hc, ?_⟩
        simp [hr, hc]
  refine ⟨h1, fun w cache url => h1 w cache url _, ?_⟩
  intro worlds cache urls url v hmem
  unfold get_job_pages at hmem
  rw [List.mem_map] at hmem
  obtain ⟨⟨u0, c0⟩, _, heq⟩ := hmem
  cases c0 with
  | none =>
    left
    have hv := congrArg Prod.snd heq
    simp at hv
    exact hv.symm
  | some content =>
    have hv := congrArg Prod.snd heq
    by_cases hc : (content == "") = true
    · left
      simp [hc] at hv
      exact hv.symm
    · right
      refine ⟨content, by simpa using hc, ?_⟩
      simp [hc] at hv
      exact hv.symm

/-- **C9 witness**: a concrete `get_job_pages` entry produced from a
non-empty raw content is the cleaned text thereof. -/
theorem C9_witness :
    some (clean_text "We are hiring a data engineer") = none ∨
    ∃ raw : String, raw ≠ "" ∧
      some (clean_text "We are hiring a data engineer")
        = some (clean_text raw) :=
  C9_amended.2.2
    (fun _ => ⟨.ok (), .ok (some 200), .ok (),
      .ok "We are hiring a data engineer"⟩)
    (⟨[], 100⟩ : URLCache) ["https://j.com/x"] "https://j.com/x"
    (some (clean_text "We are hiring a data engineer")) (by decide)

theorem containsSub_nil_left (l : List Char) : containsSub [] l = true := by
  cases l with
  | nil => rfl
  | cons c t => simp [containsSub]

theorem containsSub_of_append (sub u v : List Char) :
    containsSub sub (u ++ (sub ++ v)) = true := by
  induction u with
  | nil =>
    rw [List.nil_append]
    cases sub with
    | nil => exact containsSub_nil_left _
    | cons s0 st =>
      show containsSub (s0 :: st) (s0 :: (st ++ v)) = true
      simp only [containsSub]
      rw [show (s0 :: (st ++ v)).take (s0 :: st).length = s0 :: st from
        List.take_left (s0 :: st) v]
      simp
  | cons c r ih =>
    rw [List.cons_append]
    simp only [containsSub, ih, Bool.or_true]

/-- **C8 counterexample**: the input `"cookie policy"` is itself a line
matching the cookie pattern (case-insensitively), yet `clean_text` returns
it unchanged, so the cleaned output still contains the substring: the
regex `cookie.*?\n` requires a trailing newline and never matches the
final unterminated line. -/
theorem C8_counterexample :
    pyIn "cookie policy" "cookie policy" = true ∧
    clean_text "cookie policy" = "cookie policy" ∧
    pyIn "cookie policy" (clean_text "cookie policy") = true := by
  decide

/-- **C8 amended**: for a cookie-policy line that is newline-terminated and
surrounded by non-empty lines over the letters {x, y, z}, the cleaned
output contains no case-insensitive occurrence of `"cookie policy"`
(while the input does contain one). -/
theorem C8_amended (a b c : List Char)
    (ha : a.all safeChar = true) (hb : b.all safeChar = true)
    (hc : c.all safeChar = true) (hane : a ≠ []) (hcne : c ≠ []) :
    pyIn "cookie policy"
      ((a ++ '\n' :: ("cookie policy".toList ++ (b ++ '\n' :: c))).asString)
      = true ∧
    containsSub "cookie policy".toList
      ((clean_text ((a ++ '\n' :: ("cookie policy".toList
        ++ (b ++ '\n' :: c))).asString)).toList.map Char.toLower)
      = false := by
  constructor
  · show containsSub "cookie policy".toList
      (a ++ '\n' :: ("cookie policy".toList ++ (b ++ '\n' :: c))) = true
    rw [show a ++ '\n' :: ("cookie policy".toList ++ (b ++ '\n' :: c))
        = (a ++ ['\n']) ++ ("cookie policy".toList ++ (b ++ '\n' :: c))
      from by simp]
    exact containsSub_of_append _ _ _
  · show containsSub "cookie policy".toList
      ((cleanTextL (a ++ '\n' :: ("cookie policy".toList
        ++ (b ++ '\n' :: c)))).map Char.toLower) = false
    rw [cleanTextL_of_isNormal _
      (isNormal_family a b c ha hb hc hane hcne) (by simp)]
    rw [boilerAll_family a b c ha hb hc]
    rw [pystrip_eq_self (a ++ '\n' :: c)
      (by
        rw [head_append_of_ne_nil a _ hane]
        cases hha : a.head? with
        | none => rfl
        | some ch =>
          have := safeChar_not_pyspace ch
            (List.all_eq_true.mp ha ch (mem_of_head_eq a ch hha))
          simpa using this)
      (by
        rw [show a ++ '\n' :: c = (a ++ ['\n']) ++ c from by simp,
          List.getLast?_append_of_ne_nil _ hcne]
        cases hhc : c.getLast? with
        | none => rfl
        | some ch =>
          have := safeChar_not_pyspace ch
            (List.all_eq_true.mp hc ch (mem_of_getLast_eq c ch hhc))
          simpa using this)]
    show containsSub ('c' :: "ookie policy".toList)
      ((a ++ '\n' :: c).map Char.toLower) = false
    apply containsSub_false_of_no_head
    intro ch hch
    rw [List.mem_map] at hch
    obtain ⟨ch0, hmem0, rfl⟩ := hch
    have hcase : safeChar ch0 = true ∨ ch0 = '\n' := by
      rcases List.mem_append.mp hmem0 with h | h
      · exact Or.inl (List.all_eq_true.mp ha ch0 h)
      · rcases List.mem_cons.mp h with rfl | h2
        · exact Or.inr rfl
        · exact Or.inl (List.all_eq_true.mp hc ch0 h2)
    rcases hcase with h | rfl
    · rcases safeChar_cases ch0 h with rfl | rfl | rfl <;> decide
    · decide

/-- **C8 witness**: the amended theorem at the concrete input
`"xx\ncookie policy\nzz"`: the input contains the boilerplate line, the
cleaned output does not. -/
theorem C8_witness :
    pyIn "cookie policy"
      (("xx".toList ++ '\n' :: ("cookie policy".toList
        ++ ([] ++ '\n' :: "zz".toList))).asString) = true ∧
    containsSub "cookie policy".toList
      ((clean_text (("xx".toList ++ '\n' :: ("cookie policy".toList
        ++ ([] ++ '\n' :: "zz".toList))).asString)).toList.map Char.toLower)
      = false :=
  C8_amended "xx".toList [] "zz".toList (by decide) (by decide) (by decide)
    (by decide) (by decide)

end HireMe
